import Mathlib

/-!
CPU-Scheduler: priority queue and scheduler.

A shallow embedding of `libpriqueue/libpriqueue.c` and
`libscheduler/libscheduler.c`, followed by theorems about it.

Modelling conventions.

* A `priqueue_t` is the chain of nodes reachable from `head` (a Lean list, the
  head node first, `[]` for `head == NULL`), the comparer, and the `size`
  counter, which the C code keeps separately from the chain.  The fields `tail`
  and `index` are set to `NULL` by `priqueue_init` and never read or written by
  any operation modelled here; they are left out.
* Elements are `void *` in C.  The queue is generic in the element type; a
  pointer result that may be `NULL` because no node was found is an `Option`
  (`none` is `NULL`).  Element pointers that may themselves be `NULL` are the
  instance `Option β` of the element type, and `returned_pointer` gives the
  pointer a C caller then receives.  A `void *` that may also be the address of
  a queue node is a `void_ptr`.  In the scheduler
  every queued pointer comes from a fresh `malloc` and is offered once, so a
  write through a job pointer is a write to the list cell that holds the job.
* `int` values supplied by the caller and the results of `int` subtraction on
  them are integers; subtraction wraps modulo `2^32` (`wrap32`).  The counters
  `size`, `index`, `jobsRun`, `arrSize` count nodes and jobs and are left
  unbounded.
* An operation that dereferences `NULL` or writes outside an allocated block
  yields `Except.error`.
* A loop that need not terminate (`priqueue_remove`) takes a bound on the
  number of passes and yields `none` when the bound is reached.
-/

namespace CPUScheduler

/-! ## Machine integers -/

/-- The value of a 32-bit two's complement `int` holding `x` modulo `2^32`. -/
def wrap32 (x : Int) : Int := (x + 2147483648) % 4294967296 - 2147483648

/-- Run-time faults of the C code. -/
inductive Fault where
  | null_deref
  | out_of_bounds
  | use_after_free
deriving DecidableEq, Repr

/-! ## libpriqueue -/

/-- The priqueue data structure: the node chain from `head`, the comparer and
the size counter. -/
structure priqueue_t (α : Type) where
  nodes : List α
  comparer : α → α → Int
  size : Int

/-- The function `priqueue_init`: empty chain, the given comparer, size 0. -/
def priqueue_init {α : Type} (comparer : α → α → Int) : priqueue_t α :=
  { nodes := [], comparer := comparer, size := 0 }

/-- The `while (cursor != NULL)` loop of `priqueue_offer`, started at `cursor`
with the running `index`; returns the final `index` and the chain from
`cursor` after the new node has been linked in.  On the empty chain the loop
body never runs and the new node becomes the chain. -/
def offer_walk {α : Type} (comparer : α → α → Int) (ptr : α) : List α → Int → Int × List α
  | [], index => (index, [ptr])
  | cursor :: next, index =>
    if comparer cursor ptr ≤ 0 then
      match next with
      | [] => (index + 1, [cursor, ptr])
      | n :: rest =>
        let r := offer_walk comparer ptr (n :: rest) (index + 1)
        (r.1, cursor :: r.2)
    else
      (index, ptr :: cursor :: next)

/-- The function `priqueue_offer`: returns the index and the queue afterwards. -/
def priqueue_offer {α : Type} (q : priqueue_t α) (ptr : α) : Int × priqueue_t α :=
  let r := offer_walk q.comparer ptr q.nodes 0
  (r.1, { q with nodes := r.2, size := q.size + 1 })

/-- The function `priqueue_peek`: the head element or `NULL`; the queue is not written. -/
def priqueue_peek {α : Type} (q : priqueue_t α) : Option α × priqueue_t α :=
  match q.nodes with
  | [] => (none, q)
  | e :: _ => (some e, q)

/-- The function `priqueue_poll`: removes and returns the head element, or `NULL`. -/
def priqueue_poll {α : Type} (q : priqueue_t α) : Option α × priqueue_t α :=
  match q.nodes with
  | [] => (none, q)
  | elem :: temp => (some elem, { q with nodes := temp, size := q.size - 1 })

/-- The `for` loop of `priqueue_at` followed by `temp->element`: `steps` times
`temp = temp->next`, then the element of `temp`. -/
def at_walk {α : Type} : List α → Nat → Except Fault α
  | [], _ => Except.error Fault.null_deref
  | e :: _, 0 => Except.ok e
  | _ :: next, steps + 1 => at_walk next steps

/-- The function `priqueue_at`: `NULL` when `index >= size`, else the element `index` links
after the head (no link is followed for `index <= 0`). -/
def priqueue_at {α : Type} (q : priqueue_t α) (index : Int) :
    Except Fault (Option α × priqueue_t α) :=
  if index ≥ q.size then Except.ok (none, q)
  else
    match at_walk q.nodes index.toNat with
    | Except.ok e => Except.ok (some e, q)
    | Except.error f => Except.error f

/-- The function `priqueue_size`: the size counter. -/
def priqueue_size {α : Type} (q : priqueue_t α) : Int := q.size

/-- Offering a sequence of elements one by one. -/
def offer_all {α : Type} (q : priqueue_t α) (ptrs : List α) : priqueue_t α :=
  ptrs.foldl (fun q ptr => (priqueue_offer q ptr).2) q

/-- The size counter agrees with the number of nodes on the chain. -/
def priqueue_t.consistent {α : Type} (q : priqueue_t α) : Prop :=
  q.size = (q.nodes.length : Int)

/-- A `void *` argument of `priqueue_remove`: an element pointer, which is not
the address of a node of the queue, or the address of the node `i` links after
the head. -/
inductive void_ptr (α : Type) where
  | element (e : α)
  | node (i : Nat)

/-- The test `temp == ptr` of `priqueue_remove`, for the node `temp` that is
`pos` links after the head.  It compares the address of the node (not
`temp->element`) with `ptr`, so it holds exactly when `ptr` is the address of
that node. -/
def node_is_ptr {α : Type} (pos : Nat) (ptr : void_ptr α) : Bool :=
  match ptr with
  | void_ptr.element _ => false
  | void_ptr.node i => decide (i = pos)

/-- The `while (jump != NULL)` loop of `priqueue_remove` (the declaration
`Node* temp2` read as `node* temp2`).  `temp` is the chain from the node `temp`,
which the loop never moves from the head; the third argument is the chain from
`jump`, the fifth tells whether `temp` has been passed to `free`.  Each pass
reads `temp->next` into `temp2` (a read of freed memory once `temp` has been
freed), counts and frees `temp` when `temp == ptr`, and sets `jump` to
`temp2->next`.  The number of passes is bounded by the first argument; `none`
means the bound was reached with the loop still running.  Returns `sum` and
whether the head node was freed. -/
def remove_loop {α : Type} (temp : List α) (ptr : void_ptr α) :
    Nat → List α → Int → Bool → Option (Except Fault (Int × Bool))
  | 0, _, _, _ => none
  | fuel + 1, jump, sum, freed =>
    match jump with
    | [] => some (Except.ok (sum, freed))
    | _ :: _ =>
      if freed then some (Except.error Fault.use_after_free)
      else
        match temp with
        | [] => some (Except.error Fault.null_deref)
        | _ :: temp2 =>
          let hit := node_is_ptr 0 ptr
          let sum1 := if hit then sum + 1 else sum
          match temp2 with
          | [] => some (Except.error Fault.null_deref)
          | _ :: jump1 => remove_loop temp ptr fuel jump1 sum1 hit

/-- What a call of `priqueue_remove` leaves behind: the returned count, the
queue (its chain and size counter are never written), and whether the head node
has been passed to `free` while still linked. -/
structure remove_result (α : Type) where
  count : Int
  queue : priqueue_t α
  head_freed : Bool

/-- The function `priqueue_remove`, run for at most `fuel` passes of its
loop. -/
def priqueue_remove {α : Type} (fuel : Nat) (q : priqueue_t α) (ptr : void_ptr α) :
    Option (Except Fault (remove_result α)) :=
  match q.nodes with
  | [] => some (Except.ok { count := 0, queue := q, head_freed := false })
  | _ :: _ =>
    match remove_loop q.nodes ptr fuel q.nodes 0 false with
    | none => none
    | some (Except.error f) => some (Except.error f)
    | some (Except.ok (sum, freed)) =>
      some (Except.ok { count := sum, queue := q, head_freed := freed })

/-- The body of the `else` branch of `priqueue_remove_at` from the node `temp`
on: `steps` times `temp = temp->next`, then `temp->next = temp->next->next` and
`element = temp->next->element`.  Returns the element and the chain from `temp`
as it is linked afterwards. -/
def remove_at_unlink {α : Type} : List α → Nat → Except Fault (α × List α)
  | [], _ => Except.error Fault.null_deref
  | temp :: next, 0 =>
    match next with
    | [] => Except.error Fault.null_deref
    | _ :: next2 =>
      match next2 with
      | [] => Except.error Fault.null_deref
      | element :: rest => Except.ok (element, temp :: element :: rest)
  | temp :: next, steps + 1 =>
    match remove_at_unlink next steps with
    | Except.ok (element, chain) => Except.ok (element, temp :: chain)
    | Except.error f => Except.error f

/-- What a call of `priqueue_remove_at` leaves behind: the returned pointer,
the queue with its chain as linked from `head`, and the position on that chain
of the node that was passed to `free` while still linked (its content is
indeterminate from then on; the chain lists the element it held). -/
structure remove_at_result (α : Type) where
  element : Option α
  queue : priqueue_t α
  freed : Option Nat

/-- The function `priqueue_remove_at`. -/
def priqueue_remove_at {α : Type} (q : priqueue_t α) (index : Int) :
    Except Fault (remove_at_result α) :=
  if index ≥ q.size then Except.ok { element := none, queue := q, freed := none }
  else
    match remove_at_unlink q.nodes (index - 1).toNat with
    | Except.ok (element, chain) =>
      Except.ok
        { element := some element
          queue := { q with nodes := chain, size := q.size - 1 }
          freed := some ((index - 1).toNat + 1) }
    | Except.error f => Except.error f

/-- The pointer a C caller receives from `priqueue_peek`, `priqueue_poll` or
`priqueue_at` on a queue whose elements are nullable pointers: `NULL` when the
operation found no node, and also when the element of the node is itself the
`NULL` pointer. -/
def returned_pointer {β : Type} (r : Option (Option β)) : Option β := r.join

/-- A call on a queue: `priqueue_offer` of an element, or `priqueue_poll`. -/
inductive queue_op (α : Type) where
  | offer (ptr : α)
  | poll

/-- A sequence of `priqueue_offer` and `priqueue_poll` calls, in order. -/
def run_ops {α : Type} (q : priqueue_t α) : List (queue_op α) → priqueue_t α
  | [] => q
  | queue_op.offer ptr :: rest => run_ops (priqueue_offer q ptr).2 rest
  | queue_op.poll :: rest => run_ops (priqueue_poll q).2 rest

/-! ## libscheduler -/

/-- Information making up a job to be scheduled (`job_t`). -/
structure job_t where
  runTime : Int
  firstRun : Int
  priority : Int
  timeLeft : Int
  jobID : Int
  arrival : Int
deriving DecidableEq, Repr

/-- The scheduling algorithms (`scheme_t`). -/
inductive scheme_t where
  | FCFS
  | SJF
  | PSJF
  | PRI
  | PPRI
  | RR
deriving DecidableEq, Repr

/-- The constant `#define MIN_SIZE_ARRS 1000`. -/
def MIN_SIZE_ARRS : Int := 1000

/-- The constant `#define SCALE_SIZE 2`. -/
def SCALE_SIZE : Int := 2

/-- The comparer `PSJF_comp`: difference of the remaining times. -/
def PSJF_comp (in_queue new_job : job_t) : Int :=
  wrap32 (in_queue.timeLeft - new_job.timeLeft)

/-- The comparer `FCFS_comp`: always `-1`. -/
def FCFS_comp (_in_queue _new_job : job_t) : Int := -1

/-- The comparer `priComp`: `-1` once the queued job has run, else the
difference of the priorities. -/
def priComp (in_queue new_job : job_t) : Int :=
  if in_queue.firstRun ≠ -1 then -1
  else wrap32 (in_queue.priority - new_job.priority)

/-- The comparer `SJF_comp`: `-1` once the queued job has run, else the
difference of the running times. -/
def SJF_comp (in_queue new_job : job_t) : Int :=
  if in_queue.firstRun ≠ -1 then -1
  else wrap32 (in_queue.runTime - new_job.runTime)

/-- The comparer `RR_comp`: always `-1`. -/
def RR_comp (_in_queue _new_job : job_t) : Int := -1

/-- The comparer `PpriComp`: difference of the priorities. -/
def PpriComp (in_queue new_job : job_t) : Int :=
  wrap32 (in_queue.priority - new_job.priority)

/-- The function `get_comparer`: the comparison function of a scheme.  The `default` branch
of the C switch is not reachable from a value of the enumeration. -/
def get_comparer : scheme_t → (job_t → job_t → Int)
  | scheme_t.PRI => priComp
  | scheme_t.PSJF => PSJF_comp
  | scheme_t.SJF => SJF_comp
  | scheme_t.PPRI => PpriComp
  | scheme_t.FCFS => FCFS_comp
  | scheme_t.RR => RR_comp

/-- The scheduler state (`scheduler_t`, the global `scheduler`).  An `int *`
statistics buffer is the list of its allocated cells; a cell never written holds
`none`. -/
structure scheduler_t where
  priComp : job_t → job_t → Int
  scheme : scheme_t
  jobs : priqueue_t job_t
  availableCores : Int
  waitTime : List (Option Int)
  turnAroundTimes : List (Option Int)
  reponses : List (Option Int)
  finishedJobs : Int
  arrSize : Int
  jobsRun : Int

/-- The call `malloc(n * sizeof(int))`: `n` cells with indeterminate content. -/
def malloc_ints (n : Int) : List (Option Int) := List.replicate n.toNat none

/-- The call `realloc(block, n * sizeof(int))`: a block of `n` cells that keeps the
content of the old block up to the smaller of the two sizes. -/
def realloc_ints (block : List (Option Int)) (n : Int) : List (Option Int) :=
  block.take n.toNat ++ List.replicate (n.toNat - block.length) none

/-- The function `scheduler_start_up`. -/
def scheduler_start_up (cores : Int) (scheme : scheme_t) : scheduler_t :=
  { jobsRun := 0
    waitTime := malloc_ints MIN_SIZE_ARRS
    reponses := malloc_ints MIN_SIZE_ARRS
    turnAroundTimes := malloc_ints MIN_SIZE_ARRS
    finishedJobs := 0
    arrSize := MIN_SIZE_ARRS
    scheme := scheme
    availableCores := cores
    priComp := get_comparer scheme
    jobs := priqueue_init (get_comparer scheme) }

/-- A write through a job pointer held by the node `i` links after the head. -/
def write_job (s : scheduler_t) (i : Nat) (j : job_t) : scheduler_t :=
  { s with jobs := { s.jobs with nodes := s.jobs.nodes.set i j } }

/-- The function `checkResponses`. -/
def checkResponses (s : scheduler_t) (time : Int) : Except Fault scheduler_t :=
  match (priqueue_peek s.jobs).1 with
  | none => Except.ok s
  | some job =>
    if job.firstRun = -1 then
      match priqueue_at s.jobs 1 with
      | Except.error f => Except.error f
      | Except.ok (preFirstJob, _) =>
        let s1 : scheduler_t :=
          match preFirstJob with
          | some pre =>
            if pre.firstRun = time then write_job s 1 { pre with firstRun := -1 }
            else { s with jobsRun := s.jobsRun + 1 }
          | none => { s with jobsRun := s.jobsRun + 1 }
        let s2 : scheduler_t :=
          if s1.jobsRun = s1.arrSize then
            { s1 with
              turnAroundTimes := realloc_ints s1.turnAroundTimes s1.arrSize
              waitTime := realloc_ints s1.waitTime s1.arrSize
              reponses := realloc_ints s1.reponses s1.arrSize
              arrSize := s1.arrSize * SCALE_SIZE }
          else s1
        let s3 : scheduler_t := write_job s2 0 { job with firstRun := time }
        if 0 ≤ s3.jobsRun - 1 ∧ s3.jobsRun - 1 < (s3.reponses.length : Int) then
          Except.ok { s3 with
            reponses := s3.reponses.set (s3.jobsRun - 1).toNat
              (some (wrap32 (time - job.arrival))) }
        else Except.error Fault.out_of_bounds
    else Except.ok s

/-- The function `scheduler_new_job`: the returned core index (or `-1`) and the state
afterwards. -/
def scheduler_new_job (s : scheduler_t) (job_number time running_time priority : Int) :
    Except Fault (Int × scheduler_t) :=
  let currentJob := (priqueue_peek s.jobs).1
  let currentRunning : Int :=
    match currentJob with
    | some cj => cj.jobID
    | none => -1
  let s1 : scheduler_t :=
    match currentJob with
    | some cj =>
      write_job s 0 { cj with timeLeft := wrap32 (cj.timeLeft - wrap32 (time - cj.firstRun)) }
    | none => s
  let new_job : job_t :=
    { priority := priority
      jobID := job_number
      arrival := time
      firstRun := -1
      runTime := running_time
      timeLeft := running_time }
  let s2 : scheduler_t := { s1 with jobs := (priqueue_offer s1.jobs new_job).2 }
  match checkResponses s2 time with
  | Except.error f => Except.error f
  | Except.ok s3 =>
    match (priqueue_peek s3.jobs).1 with
    | none => Except.error Fault.null_deref
    | some front =>
      if front.jobID ≠ currentRunning then Except.ok (0, s3) else Except.ok (-1, s3)

/-- The function `scheduler_job_finished`: `return -1;`. -/
def scheduler_job_finished (s : scheduler_t) (_core_id _job_number _time : Int) :
    Int × scheduler_t := (-1, s)

/-- The function `scheduler_quantum_expired`: `return -1;`. -/
def scheduler_quantum_expired (s : scheduler_t) (_core_id _time : Int) :
    Int × scheduler_t := (-1, s)

/-- The function `scheduler_average_waiting_time`: `return 0.0;`. -/
def scheduler_average_waiting_time (_s : scheduler_t) : ℚ := 0

/-- The function `scheduler_average_turnaround_time`: `return 0.0;`. -/
def scheduler_average_turnaround_time (_s : scheduler_t) : ℚ := 0

/-- The function `scheduler_average_response_time`: `return 0.0;`. -/
def scheduler_average_response_time (_s : scheduler_t) : ℚ := 0

/-- One arrival event: job number, time, running time, priority. -/
structure arrival_t where
  job_number : Int
  time : Int
  running_time : Int
  priority : Int
deriving DecidableEq, Repr

/-- A run of `scheduler_new_job` calls, one per arrival in order; returns the
values returned by the calls and the final state. -/
def run_arrivals : scheduler_t → List arrival_t → Except Fault (List Int × scheduler_t)
  | s, [] => Except.ok ([], s)
  | s, a :: rest =>
    match scheduler_new_job s a.job_number a.time a.running_time a.priority with
    | Except.error f => Except.error f
    | Except.ok (r, s1) =>
      match run_arrivals s1 rest with
      | Except.error f => Except.error f
      | Except.ok (rs, s2) => Except.ok (r :: rs, s2)

/-! ## Auxiliary definitions for the statements -/

/-- The job record `scheduler_new_job` allocates for an arrival. -/
def new_job_of (job_number time running_time priority : Int) : job_t :=
  { priority := priority
    jobID := job_number
    arrival := time
    firstRun := -1
    runTime := running_time
    timeLeft := running_time }

/-- The front job after `scheduler_new_job` has charged it the time elapsed
since its first run. -/
def charged (f : job_t) (time : Int) : job_t :=
  { f with timeLeft := wrap32 (f.timeLeft - wrap32 (time - f.firstRun)) }

/-- The state after the first arrival following start-up. -/
def after_first (cores : Int) (scheme : scheme_t)
    (job_number time running_time priority : Int) : scheduler_t :=
  { scheduler_start_up cores scheme with
    jobs :=
      { nodes := [{ new_job_of job_number time running_time priority with firstRun := time }]
        comparer := get_comparer scheme
        size := 1 }
    jobsRun := 1
    reponses := (malloc_ints MIN_SIZE_ARRS).set 0 (some 0) }

/-- The state after two arrivals following start-up when the second job is
queued behind the first. -/
def after_second_behind (cores : Int) (scheme : scheme_t) (a b : arrival_t) : scheduler_t :=
  { after_first cores scheme a.job_number a.time a.running_time a.priority with
    jobs :=
      { nodes :=
          [charged { new_job_of a.job_number a.time a.running_time a.priority with
              firstRun := a.time } b.time,
            new_job_of b.job_number b.time b.running_time b.priority]
        comparer := get_comparer scheme
        size := 2 } }

/-- The schemes that never take a started job off its core. -/
def non_preemptive (scheme : scheme_t) : Prop :=
  scheme = scheme_t.FCFS ∨ scheme = scheme_t.SJF ∨ scheme = scheme_t.PRI ∨
    scheme = scheme_t.RR

/-- The values of a 32-bit `int`. -/
def int32 (x : Int) : Prop := -2147483648 ≤ x ∧ x ≤ 2147483647

/-- The statistics bookkeeping of `checkResponses` for a job that starts to
run: `jobsRun++`, and when `jobsRun == arrSize` the three `realloc` calls with
the current `arrSize` followed by `arrSize *= SCALE_SIZE`. -/
def started (s : scheduler_t) : scheduler_t :=
  let s1 : scheduler_t := { s with jobsRun := s.jobsRun + 1 }
  if s1.jobsRun = s1.arrSize then
    { s1 with
      turnAroundTimes := realloc_ints s1.turnAroundTimes s1.arrSize
      waitTime := realloc_ints s1.waitTime s1.arrSize
      reponses := realloc_ints s1.reponses s1.arrSize
      arrSize := s1.arrSize * SCALE_SIZE }
  else s1

/-- The chain after `scheduler_new_job` has charged the front job, if any, the
time elapsed since its first run. -/
def charge_front (nodes : List job_t) (time : Int) : List job_t :=
  match nodes with
  | [] => []
  | f :: t => charged f time :: t

/-- The state is one that `n` arrivals, the last at time `T`, lead to when no
response has been written outside the response buffer: the queue holds the `n`
jobs and its size counter is `n`; the front job has run; every first-run
timestamp is unset or a time in `[0, T]`; arrival times are at most `T` and
pairwise different; at most `n` and at most 1000 jobs have run, the response
buffer has 1000 cells and `arrSize` has been doubled once 1000 jobs have
run. -/
def reach (s : scheduler_t) (n : Nat) (T : Int) : Prop :=
  s.jobs.size = (n : Int) ∧ s.jobs.nodes.length = n ∧
  (∀ f t, s.jobs.nodes = f :: t → f.firstRun ≠ -1) ∧
  (∀ j ∈ s.jobs.nodes,
    (j.firstRun = -1 ∨ (0 ≤ j.firstRun ∧ j.firstRun ≤ T)) ∧ j.arrival ≤ T) ∧
  (s.jobs.nodes.map (fun j => j.arrival)).Nodup ∧
  0 ≤ s.jobsRun ∧ s.jobsRun ≤ (n : Int) ∧ s.reponses.length = 1000 ∧
  ((s.jobsRun < 1000 ∧ s.arrSize = 1000) ∨ (s.jobsRun = 1000 ∧ s.arrSize = 2000))

/-- Every job of the chain `l` is still on the chain `l2`, with the same job
number, arrival time, burst and priority, and with the same first-run timestamp
if that was set. -/
def kept (l l2 : List job_t) : Prop :=
  ∀ j ∈ l, ∃ j2 ∈ l2,
    j2.jobID = j.jobID ∧ j2.arrival = j.arrival ∧ j2.runTime = j.runTime ∧
    j2.priority = j.priority ∧ (j.firstRun ≠ -1 → j2.firstRun = j.firstRun)

/-- The arrivals of jobs `k, k + 1, ..., k + m - 1`: job `i` arrives at time
`i` with burst 2000 and priority `1000 - i`, so each job has a lower priority
value than all jobs before it. -/
def rising_priority_arrivals : Nat → Nat → List arrival_t
  | _, 0 => []
  | k, m + 1 =>
    { job_number := (k : Int), time := (k : Int), running_time := 2000,
      priority := 1000 - (k : Int) } :: rising_priority_arrivals (k + 1) m

/-- The scheduler state after the jobs `0, ..., k - 1` of
`rising_priority_arrivals` have arrived under PPRI: job `k - 1` is the front
and running since time `k - 1`, all `k` jobs have run, and the response buffer
has 1000 cells. -/
def ppri_state (s : scheduler_t) (k : Nat) : Prop :=
  s.jobs.comparer = PpriComp ∧ s.jobs.size = (k : Int) ∧
  (∃ f t, s.jobs.nodes = f :: t ∧ f.priority = 1000 - ((k : Int) - 1) ∧
    f.firstRun = (k : Int) - 1 ∧ f.jobID = (k : Int) - 1) ∧
  s.jobsRun = (k : Int) ∧ s.reponses.length = 1000 ∧
  ((s.jobsRun < 1000 ∧ s.arrSize = 1000) ∨ (s.jobsRun = 1000 ∧ s.arrSize = 2000))

/-- The job record allocated for an arrival event. -/
def job_of (a : arrival_t) : job_t :=
  new_job_of a.job_number a.time a.running_time a.priority

/-- Three-way comparison of two jobs by total burst, without wrap-around. -/
def burst_order (a b : job_t) : Int := a.runTime - b.runTime

/-! ## Lemmas on `priqueue_offer` -/

section offer_lemmas

variable {α : Type}

/-- The loop of `priqueue_offer` skips the longest prefix of nodes whose
element compares `<= 0` against the new element and links the new node there. -/
theorem offer_walk_eq (cmp : α → α → Int) (ptr : α) (l : List α) (i : Int) :
    offer_walk cmp ptr l i =
      (i + ((l.takeWhile (fun c => decide (cmp c ptr ≤ 0))).length : Int),
        l.takeWhile (fun c => decide (cmp c ptr ≤ 0)) ++
          ptr :: l.dropWhile (fun c => decide (cmp c ptr ≤ 0))) := by
  induction l generalizing i with
  | nil => simp [offer_walk]
  | cons c t ih =>
    by_cases h : cmp c ptr ≤ 0
    · cases t with
      | nil => simp [offer_walk, h]
      | cons n rest =>
        have ih2 := ih (i + 1)
        simp only [offer_walk, h, if_true]
        rw [ih2]
        simp [List.takeWhile_cons, List.dropWhile_cons, h]
        omega
    · cases t <;> simp [offer_walk, h, List.takeWhile_cons, List.dropWhile_cons]

theorem priqueue_offer_nodes (q : priqueue_t α) (ptr : α) :
    (priqueue_offer q ptr).2.nodes =
      q.nodes.takeWhile (fun c => decide (q.comparer c ptr ≤ 0)) ++
        ptr :: q.nodes.dropWhile (fun c => decide (q.comparer c ptr ≤ 0)) := by
  simp [priqueue_offer, offer_walk_eq]

theorem priqueue_offer_index (q : priqueue_t α) (ptr : α) :
    (priqueue_offer q ptr).1 =
      ((q.nodes.takeWhile (fun c => decide (q.comparer c ptr ≤ 0))).length : Int) := by
  simp [priqueue_offer, offer_walk_eq]

theorem priqueue_offer_comparer (q : priqueue_t α) (ptr : α) :
    (priqueue_offer q ptr).2.comparer = q.comparer := rfl

theorem priqueue_offer_size (q : priqueue_t α) (ptr : α) :
    (priqueue_offer q ptr).2.size = q.size + 1 := rfl

theorem offer_all_append (q : priqueue_t α) (xs : List α) (x : α) :
    offer_all q (xs ++ [x]) = (priqueue_offer (offer_all q xs) x).2 := by
  simp [offer_all, List.foldl_append]

theorem offer_all_comparer (q : priqueue_t α) (xs : List α) :
    (offer_all q xs).comparer = q.comparer := by
  induction xs using List.reverseRecOn with
  | nil => rfl
  | append_singleton xs x ih => rw [offer_all_append, priqueue_offer_comparer, ih]

/-- In a sorted chain every node left behind the insertion point is strictly
after the new element. -/
theorem dropWhile_not_le (cmp : α → α → Int)
    (trans : ∀ a b c, cmp a b ≤ 0 → cmp b c ≤ 0 → cmp a c ≤ 0) (ptr : α) (l : List α)
    (hs : l.Pairwise (fun a b => cmp a b ≤ 0)) :
    ∀ b ∈ l.dropWhile (fun c => decide (cmp c ptr ≤ 0)), ¬ cmp b ptr ≤ 0 := by
  induction l with
  | nil => simp
  | cons c t ih =>
    rw [List.pairwise_cons] at hs
    by_cases h : cmp c ptr ≤ 0
    · simpa [List.dropWhile_cons, h] using ih hs.2
    · intro b hb
      simp only [List.dropWhile_cons, h, decide_False, Bool.false_eq_true, if_false,
        List.mem_cons] at hb
      rcases hb with hb | hb
      · rw [hb]; exact h
      · intro hle
        exact h (trans c b ptr (hs.1 b hb) hle)

theorem offer_sorted (cmp : α → α → Int)
    (total : ∀ a b, cmp a b ≤ 0 ∨ cmp b a ≤ 0)
    (trans : ∀ a b c, cmp a b ≤ 0 → cmp b c ≤ 0 → cmp a c ≤ 0) (ptr : α) (l : List α)
    (hs : l.Pairwise (fun a b => cmp a b ≤ 0)) :
    (l.takeWhile (fun c => decide (cmp c ptr ≤ 0)) ++
      ptr :: l.dropWhile (fun c => decide (cmp c ptr ≤ 0))).Pairwise
        (fun a b => cmp a b ≤ 0) := by
  have hd := dropWhile_not_le cmp trans ptr l hs
  have hge : ∀ b ∈ l.dropWhile (fun c => decide (cmp c ptr ≤ 0)), cmp ptr b ≤ 0 := by
    intro b hb
    rcases total ptr b with h | h
    · exact h
    · exact absurd h (hd b hb)
  rw [List.pairwise_append]
  refine ⟨hs.sublist (List.takeWhile_sublist _), ?_, ?_⟩
  · rw [List.pairwise_cons]
    exact ⟨hge, hs.sublist (List.dropWhile_sublist _)⟩
  · intro a ha b hb
    have hap : cmp a ptr ≤ 0 := by
      have := List.mem_takeWhile_imp ha
      simpa using this
    rcases List.mem_cons.1 hb with hb | hb
    · rw [hb]; exact hap
    · exact trans a ptr b hap (hge b hb)

theorem offer_perm (p : α → Bool) (ptr : α) (l : List α) :
    (l.takeWhile p ++ ptr :: l.dropWhile p).Perm (l ++ [ptr]) := by
  have h1 : (l.takeWhile p ++ ptr :: l.dropWhile p).Perm
      (ptr :: (l.takeWhile p ++ l.dropWhile p)) := List.perm_middle
  rw [List.takeWhile_append_dropWhile] at h1
  exact h1.trans (List.perm_append_singleton ptr l).symm

/-- The new element lands behind every element of its own comparator class. -/
theorem offer_filter_class (cmp : α → α → Int)
    (trans : ∀ a b c, cmp a b ≤ 0 → cmp b c ≤ 0 → cmp a c ≤ 0) (ptr : α) (l : List α)
    (hs : l.Pairwise (fun a b => cmp a b ≤ 0)) (a : α) :
    (l.takeWhile (fun c => decide (cmp c ptr ≤ 0)) ++
      ptr :: l.dropWhile (fun c => decide (cmp c ptr ≤ 0))).filter
        (fun x => decide (cmp x a ≤ 0 ∧ cmp a x ≤ 0)) =
    (l ++ [ptr]).filter (fun x => decide (cmp x a ≤ 0 ∧ cmp a x ≤ 0)) := by
  have hd := dropWhile_not_le cmp trans ptr l hs
  have hl : l.filter (fun x => decide (cmp x a ≤ 0 ∧ cmp a x ≤ 0)) =
      (l.takeWhile (fun c => decide (cmp c ptr ≤ 0))).filter
          (fun x => decide (cmp x a ≤ 0 ∧ cmp a x ≤ 0)) ++
        (l.dropWhile (fun c => decide (cmp c ptr ≤ 0))).filter
          (fun x => decide (cmp x a ≤ 0 ∧ cmp a x ≤ 0)) := by
    rw [← List.filter_append, List.takeWhile_append_dropWhile]
  by_cases hp : cmp ptr a ≤ 0 ∧ cmp a ptr ≤ 0
  · have hnil : (l.dropWhile (fun c => decide (cmp c ptr ≤ 0))).filter
        (fun x => decide (cmp x a ≤ 0 ∧ cmp a x ≤ 0)) = [] := by
      rw [List.filter_eq_nil_iff]
      intro b hb hE
      simp only [decide_eq_true_eq] at hE
      exact hd b hb (trans b a ptr hE.1 hp.2)
    rw [List.filter_append, List.filter_append, List.filter_cons, hl, hnil]
    simp [hp]
  · rw [List.filter_append, List.filter_append, List.filter_cons, hl]
    simp [hp]

/-- Two sorted lists with the same class-by-class content are equal. -/
theorem sorted_classes_unique (cmp : α → α → Int) :
    ∀ (l₁ l₂ : List α),
      l₁.Pairwise (fun a b => cmp a b ≤ 0) → l₂.Pairwise (fun a b => cmp a b ≤ 0) →
      (∀ a, l₁.filter (fun x => decide (cmp x a ≤ 0 ∧ cmp a x ≤ 0)) =
        l₂.filter (fun x => decide (cmp x a ≤ 0 ∧ cmp a x ≤ 0))) →
      (∀ a ∈ l₁, cmp a a ≤ 0) → (∀ a ∈ l₂, cmp a a ≤ 0) → l₁ = l₂ := by
  intro l₁
  induction l₁ with
  | nil =>
    intro l₂ _ _ hf _ h2
    cases l₂ with
    | nil => rfl
    | cons b t =>
      have := hf b
      simp [h2 b (List.mem_cons_self _ _)] at this
  | cons a t ih =>
    intro l₂ hs1 hs2 hf h1 h2
    cases l₂ with
    | nil =>
      have := hf a
      simp [h1 a (List.mem_cons_self _ _)] at this
    | cons b u =>
      have haa := h1 a (List.mem_cons_self _ _)
      have hbb := h2 b (List.mem_cons_self _ _)
      rw [List.pairwise_cons] at hs1 hs2
      have ha_mem : a ∈ (b :: u).filter (fun x => decide (cmp x a ≤ 0 ∧ cmp a x ≤ 0)) := by
        rw [← hf a]; simp [haa]
      have hb_mem : b ∈ (a :: t).filter (fun x => decide (cmp x b ≤ 0 ∧ cmp b x ≤ 0)) := by
        rw [hf b]; simp [hbb]
      have hba : cmp b a ≤ 0 := by
        rcases List.mem_cons.1 (List.mem_filter.1 ha_mem).1 with h | h
        · rw [h]; exact hbb
        · exact hs2.1 a h
      have hab : cmp a b ≤ 0 := by
        rcases List.mem_cons.1 (List.mem_filter.1 hb_mem).1 with h | h
        · rw [h]; exact haa
        · exact hs1.1 b h
      have hfa := hf a
      simp only [List.filter_cons, haa, hba, hab, and_self, decide_True, if_true] at hfa
      have hab_eq : a = b := (List.cons.inj hfa).1
      subst hab_eq
      have htu : t = u := by
        apply ih u hs1.2 hs2.2
        · intro c
          have hfc := hf c
          simp only [List.filter_cons] at hfc
          by_cases hc : cmp a c ≤ 0 ∧ cmp c a ≤ 0
          · simp only [hc, and_self, decide_True, if_true] at hfc
            exact (List.cons.inj hfc).2
          · simp only [hc, decide_False, Bool.false_eq_true, if_false] at hfc
            exact hfc
        · intro c hc; exact h1 c (List.mem_cons_of_mem _ hc)
        · intro c hc; exact h2 c (List.mem_cons_of_mem _ hc)
      rw [htu]

/-- Invariant of offering one by one into a fresh queue: the chain is sorted,
a permutation of what was offered, and holds each comparator class in offer
order. -/
theorem offer_all_invariant (cmp : α → α → Int)
    (total : ∀ a b, cmp a b ≤ 0 ∨ cmp b a ≤ 0)
    (trans : ∀ a b c, cmp a b ≤ 0 → cmp b c ≤ 0 → cmp a c ≤ 0) (xs : List α) :
    (offer_all (priqueue_init cmp) xs).nodes.Pairwise (fun a b => cmp a b ≤ 0) ∧
    (offer_all (priqueue_init cmp) xs).nodes.Perm xs ∧
    (∀ a, (offer_all (priqueue_init cmp) xs).nodes.filter
        (fun x => decide (cmp x a ≤ 0 ∧ cmp a x ≤ 0)) =
      xs.filter (fun x => decide (cmp x a ≤ 0 ∧ cmp a x ≤ 0))) := by
  induction xs using List.reverseRecOn with
  | nil => simp [offer_all, priqueue_init]
  | append_singleton xs x ih =>
    obtain ⟨hs, hp, hf⟩ := ih
    have hc : (offer_all (priqueue_init cmp) xs).comparer = cmp := offer_all_comparer _ _
    rw [offer_all_append, priqueue_offer_nodes, hc]
    refine ⟨offer_sorted cmp total trans x _ hs, ?_, ?_⟩
    · exact (offer_perm _ x _).trans (hp.append_right [x])
    · intro a
      rw [offer_filter_class cmp trans x _ hs a, List.filter_append, List.filter_append, hf a]

/-- The library merge sort keeps every comparator class in input order. -/
theorem mergeSort_filter_class (cmp : α → α → Int)
    (total : ∀ a b, cmp a b ≤ 0 ∨ cmp b a ≤ 0)
    (trans : ∀ a b c, cmp a b ≤ 0 → cmp b c ≤ 0 → cmp a c ≤ 0) (xs : List α) (a : α) :
    (xs.mergeSort (fun a b => decide (cmp a b ≤ 0))).filter
        (fun x => decide (cmp x a ≤ 0 ∧ cmp a x ≤ 0)) =
      xs.filter (fun x => decide (cmp x a ≤ 0 ∧ cmp a x ≤ 0)) := by
  have htr : ∀ (a b c : α), decide (cmp a b ≤ 0) = true → decide (cmp b c ≤ 0) = true →
      decide (cmp a c ≤ 0) = true := by
    intro a b c h1 h2
    simp only [decide_eq_true_eq] at h1 h2 ⊢
    exact trans a b c h1 h2
  have hto : ∀ (a b : α), (decide (cmp a b ≤ 0) || decide (cmp b a ≤ 0)) = true := by
    intro a b
    simp only [Bool.or_eq_true, decide_eq_true_eq]
    exact total a b
  have hpw : (xs.filter (fun x => decide (cmp x a ≤ 0 ∧ cmp a x ≤ 0))).Pairwise
      (fun a b => decide (cmp a b ≤ 0) = true) := by
    rw [List.pairwise_iff_forall_sublist]
    intro x y hxy
    have hx : x ∈ xs.filter (fun x => decide (cmp x a ≤ 0 ∧ cmp a x ≤ 0)) :=
      hxy.subset (List.mem_cons_self _ _)
    have hy : y ∈ xs.filter (fun x => decide (cmp x a ≤ 0 ∧ cmp a x ≤ 0)) :=
      hxy.subset (List.mem_cons_of_mem _ (List.mem_cons_self _ _))
    have hx2 := (List.mem_filter.1 hx).2
    have hy2 := (List.mem_filter.1 hy).2
    simp only [decide_eq_true_eq] at hx2 hy2 ⊢
    exact trans x a y hx2.1 hy2.2
  have hsub := List.sublist_mergeSort htr hto hpw (List.filter_sublist xs)
  have hsub2 := hsub.filter (fun x => decide (cmp x a ≤ 0 ∧ cmp a x ≤ 0))
  rw [List.filter_filter] at hsub2
  simp only [Bool.and_self] at hsub2
  have hlen := ((List.mergeSort_perm xs (fun a b => decide (cmp a b ≤ 0))).filter
    (fun x => decide (cmp x a ≤ 0 ∧ cmp a x ≤ 0))).length_eq
  exact (hsub2.eq_of_length hlen.symm).symm

end offer_lemmas

/-! ## Theorems: libpriqueue -/

/-- C1: for a comparator that is a total preorder, offering a finite sequence
one by one into a freshly initialised queue leaves the queue, front to back, as
the stable sort of the offered sequence: it is in non-decreasing comparator
order, it is a rearrangement of the offered sequence, elements that compare
equal (each comparator class) appear in the order they were offered, and it
coincides with the library's stable merge sort of the offered sequence. -/
theorem priqueue_offer_all_stable_sort {α : Type} (cmp : α → α → Int)
    (total : ∀ a b, cmp a b ≤ 0 ∨ cmp b a ≤ 0)
    (trans : ∀ a b c, cmp a b ≤ 0 → cmp b c ≤ 0 → cmp a c ≤ 0) (xs : List α) :
    (offer_all (priqueue_init cmp) xs).nodes.Pairwise (fun a b => cmp a b ≤ 0) ∧
    (offer_all (priqueue_init cmp) xs).nodes.Perm xs ∧
    (∀ a, (offer_all (priqueue_init cmp) xs).nodes.filter
        (fun x => decide (cmp x a ≤ 0 ∧ cmp a x ≤ 0)) =
      xs.filter (fun x => decide (cmp x a ≤ 0 ∧ cmp a x ≤ 0))) ∧
    (offer_all (priqueue_init cmp) xs).nodes =
      xs.mergeSort (fun a b => decide (cmp a b ≤ 0)) := by
  obtain ⟨hs, hp, hf⟩ := offer_all_invariant cmp total trans xs
  refine ⟨hs, hp, hf, ?_⟩
  have hrefl : ∀ a : α, cmp a a ≤ 0 := fun a => (total a a).elim id id
  have hms : (xs.mergeSort (fun a b => decide (cmp a b ≤ 0))).Pairwise
      (fun a b => cmp a b ≤ 0) := by
    have h := @List.sorted_mergeSort α (fun a b => decide (cmp a b ≤ 0))
      (fun a b c h1 h2 => by
        simp only [decide_eq_true_eq] at h1 h2 ⊢
        exact trans a b c h1 h2)
      (fun a b => by
        simp only [Bool.or_eq_true, decide_eq_true_eq]
        exact total a b) xs
    exact h.imp (fun h => by simpa using h)
  apply sorted_classes_unique cmp _ _ hs hms
  · intro a
    rw [hf a, mergeSort_filter_class cmp total trans xs a]
  · intro a _; exact hrefl a
  · intro a _; exact hrefl a

/-- C1 witness: integers under the three-way comparison by sign of the
difference of their absolute values; `-1` and `1` compare equal and keep their
offer order. -/
theorem priqueue_offer_all_stable_sort_witness :
    (offer_all (priqueue_init (fun a b : Int => (a.natAbs : Int) - (b.natAbs : Int)))
        [3, -1, 2, 1]).nodes =
      [3, -1, 2, 1].mergeSort
        (fun a b => decide ((a.natAbs : Int) - (b.natAbs : Int) ≤ 0)) ∧
    (offer_all (priqueue_init (fun a b : Int => (a.natAbs : Int) - (b.natAbs : Int)))
        [3, -1, 2, 1]).nodes = [-1, 1, 2, 3] :=
  ⟨(priqueue_offer_all_stable_sort
      (fun a b : Int => (a.natAbs : Int) - (b.natAbs : Int))
      (fun a b => by beta_reduce; omega)
      (fun a b c h1 h2 => by beta_reduce at h1 h2 ⊢; omega) [3, -1, 2, 1]).2.2.2,
    by decide⟩

theorem at_walk_append {α : Type} (l₁ : List α) (e : α) (l₂ : List α) :
    at_walk (l₁ ++ e :: l₂) l₁.length = Except.ok e := by
  induction l₁ with
  | nil => rfl
  | cons c t ih => simpa [at_walk] using ih

theorem eraseIdx_append_middle {α : Type} (l₁ : List α) (e : α) (l₂ : List α) :
    (l₁ ++ e :: l₂).eraseIdx l₁.length = l₁ ++ l₂ := by
  induction l₁ with
  | nil => rfl
  | cons c t ih => simpa [List.eraseIdx] using ih

/-- C9: on a queue whose size counter agrees with its chain, for every
comparator and every element, `priqueue_offer` returns an index `r` with
`0 <= r <= old size`; afterwards `priqueue_at(q, r)` is the offered element,
the size has grown by exactly one (and still agrees with the chain), and
deleting position `r` gives back the old chain, so every previously stored
element is still there in its previous relative order.  `r = 0` exactly when
the new node is the front: for `r = 0` the chain is the new element followed by
the old chain, for `r != 0` the old chain is non-empty and its front is still
the front; for an element not already stored this is `r = 0` iff
`priqueue_peek` returns the offered element. -/
theorem priqueue_offer_index_spec {α : Type} (q : priqueue_t α) (ptr : α)
    (hq : q.consistent) :
    0 ≤ (priqueue_offer q ptr).1 ∧ (priqueue_offer q ptr).1 ≤ q.size ∧
    priqueue_at (priqueue_offer q ptr).2 (priqueue_offer q ptr).1 =
      Except.ok (some ptr, (priqueue_offer q ptr).2) ∧
    (priqueue_offer q ptr).2.size = q.size + 1 ∧
    (priqueue_offer q ptr).2.consistent ∧
    (priqueue_offer q ptr).2.nodes.eraseIdx (priqueue_offer q ptr).1.toNat = q.nodes ∧
    ((priqueue_offer q ptr).1 = 0 → (priqueue_offer q ptr).2.nodes = ptr :: q.nodes) ∧
    ((priqueue_offer q ptr).1 ≠ 0 → q.nodes ≠ [] ∧
      (priqueue_peek (priqueue_offer q ptr).2).1 = (priqueue_peek q).1) ∧
    (ptr ∉ q.nodes →
      ((priqueue_offer q ptr).1 = 0 ↔
        (priqueue_peek (priqueue_offer q ptr).2).1 = some ptr)) := by
  have hq2 : q.size = (q.nodes.length : Int) := hq
  have hsplit := List.takeWhile_append_dropWhile
    (fun c => decide (q.comparer c ptr ≤ 0)) q.nodes
  have hlen : (q.nodes.takeWhile (fun c => decide (q.comparer c ptr ≤ 0))).length ≤
      q.nodes.length := (List.takeWhile_sublist _).length_le
  have hfront : (priqueue_offer q ptr).1 ≠ 0 → q.nodes ≠ [] ∧
      (priqueue_peek (priqueue_offer q ptr).2).1 = (priqueue_peek q).1 := by
    rw [priqueue_offer_index]
    intro h0
    cases hn : q.nodes with
    | nil => simp [hn] at h0
    | cons c t =>
      refine ⟨by simp, ?_⟩
      by_cases hc : q.comparer c ptr ≤ 0
      · simp [priqueue_peek, priqueue_offer_nodes, hn, List.takeWhile_cons, hc]
      · simp [hn, List.takeWhile_cons, hc] at h0
  have hzero : (priqueue_offer q ptr).1 = 0 →
      (priqueue_offer q ptr).2.nodes = ptr :: q.nodes := by
    rw [priqueue_offer_index, priqueue_offer_nodes]
    intro h0
    have h1 : q.nodes.takeWhile (fun c => decide (q.comparer c ptr ≤ 0)) = [] :=
      List.length_eq_zero.1 (by exact_mod_cast h0)
    have hd : q.nodes.dropWhile (fun c => decide (q.comparer c ptr ≤ 0)) = q.nodes := by
      rw [h1] at hsplit
      exact hsplit
    rw [h1, hd]
    rfl
  refine ⟨?_, ?_, ?_, rfl, ?_, ?_, hzero, hfront, ?_⟩
  · rw [priqueue_offer_index]; exact Int.natCast_nonneg _
  · rw [priqueue_offer_index, hq2]; exact_mod_cast hlen
  · have hlt : ¬ ((priqueue_offer q ptr).1 ≥ (priqueue_offer q ptr).2.size) := by
      rw [priqueue_offer_index, priqueue_offer_size, hq2]
      have : ((q.nodes.takeWhile (fun c => decide (q.comparer c ptr ≤ 0))).length : Int) ≤
          (q.nodes.length : Int) := by exact_mod_cast hlen
      omega
    unfold priqueue_at
    rw [if_neg hlt, priqueue_offer_index, priqueue_offer_nodes, Int.toNat_ofNat,
      at_walk_append]
  · show (priqueue_offer q ptr).2.size = ((priqueue_offer q ptr).2.nodes.length : Int)
    rw [priqueue_offer_size, priqueue_offer_nodes, hq2]
    have : (q.nodes.takeWhile (fun c => decide (q.comparer c ptr ≤ 0))).length +
        (q.nodes.dropWhile (fun c => decide (q.comparer c ptr ≤ 0))).length =
        q.nodes.length := by
      rw [← List.length_append, hsplit]
    simp only [List.length_append, List.length_cons]
    omega
  · rw [priqueue_offer_index, priqueue_offer_nodes, Int.toNat_ofNat, eraseIdx_append_middle,
      hsplit]
  · intro hmem
    constructor
    · intro h0
      simp [priqueue_peek, hzero h0]
    · intro hp
      by_contra h0
      obtain ⟨hne, hpk⟩ := hfront h0
      rw [hp] at hpk
      cases hn : q.nodes with
      | nil => exact hne hn
      | cons c t =>
        simp only [priqueue_peek, hn] at hpk
        have hc : ptr = c := Option.some.inj hpk
        apply hmem
        rw [hn, hc]
        exact List.mem_cons_self _ _

/-- C9 witness: offering 5 into the queue 1, 4, 7 under the sign of the
difference lands at index 2. -/
theorem priqueue_offer_index_spec_witness :
    priqueue_t.consistent
      ({ nodes := [1, 4, 7], comparer := fun a b => a - b, size := 3 } : priqueue_t Int) ∧
    (priqueue_offer
      ({ nodes := [1, 4, 7], comparer := fun a b => a - b, size := 3 } : priqueue_t Int)
        5).1 = 2 ∧
    priqueue_at
      (priqueue_offer
        ({ nodes := [1, 4, 7], comparer := fun a b => a - b, size := 3 } : priqueue_t Int)
          5).2
      (priqueue_offer
        ({ nodes := [1, 4, 7], comparer := fun a b => a - b, size := 3 } : priqueue_t Int)
          5).1 =
      Except.ok (some 5,
        (priqueue_offer
          ({ nodes := [1, 4, 7], comparer := fun a b => a - b, size := 3 } : priqueue_t Int)
            5).2) :=
  ⟨rfl, by decide,
    (priqueue_offer_index_spec
      ({ nodes := [1, 4, 7], comparer := fun a b => a - b, size := 3 } : priqueue_t Int)
      5 rfl).2.2.1⟩

/-- C10: on a non-empty queue `priqueue_poll` returns the element
`priqueue_peek` returns (the head element, not `NULL`), and afterwards the
queue holds the remaining elements in their previous order with size reduced by
one; on the empty queue both return `NULL` and leave the queue unchanged;
`priqueue_peek` never changes the queue. -/
theorem priqueue_poll_peek_spec {α : Type} (q : priqueue_t α) :
    (q.nodes ≠ [] →
      (priqueue_poll q).1 = (priqueue_peek q).1 ∧
      (priqueue_peek q).1 = q.nodes.head? ∧
      (priqueue_peek q).1 ≠ none ∧
      (priqueue_poll q).2.nodes = q.nodes.tail ∧
      (priqueue_poll q).2.size = q.size - 1 ∧
      (priqueue_poll q).2.comparer = q.comparer) ∧
    (q.nodes = [] → priqueue_peek q = (none, q) ∧ priqueue_poll q = (none, q)) ∧
    (priqueue_peek q).2 = q := by
  refine ⟨?_, ?_, ?_⟩
  · intro hne
    cases hn : q.nodes with
    | nil => exact absurd hn hne
    | cons e t => simp [priqueue_poll, priqueue_peek, hn]
  · intro hn
    simp [priqueue_poll, priqueue_peek, hn]
  · unfold priqueue_peek
    cases q.nodes <;> rfl

/-- C10 witness: polling the queue 1, 4, 7 returns 1, as peek does, and leaves
4, 7 with size 2. -/
theorem priqueue_poll_peek_spec_witness :
    (priqueue_poll
      ({ nodes := [1, 4, 7], comparer := fun a b => a - b, size := 3 } : priqueue_t Int)).1 =
      (priqueue_peek
        ({ nodes := [1, 4, 7], comparer := fun a b => a - b, size := 3 } : priqueue_t Int)).1 ∧
    (priqueue_poll
      ({ nodes := [1, 4, 7], comparer := fun a b => a - b, size := 3 } : priqueue_t Int)).1 =
      some 1 ∧
    (priqueue_poll
      ({ nodes := [1, 4, 7], comparer := fun a b => a - b, size := 3 } : priqueue_t Int)).2.nodes =
      [4, 7] ∧
    (priqueue_poll
      ({ nodes := [1, 4, 7], comparer := fun a b => a - b, size := 3 } : priqueue_t Int)).2.size =
      2 :=
  ⟨((priqueue_poll_peek_spec
      ({ nodes := [1, 4, 7], comparer := fun a b => a - b, size := 3 } : priqueue_t Int)).1
      (by decide)).1, by decide, by decide, by decide⟩

/-! ## Theorems: libscheduler -/

theorem wrap32_zero : wrap32 0 = 0 := by decide

theorem wrap32_of_range (x : Int) (h1 : -2147483648 ≤ x) (h2 : x ≤ 2147483647) :
    wrap32 x = x := by
  unfold wrap32
  omega

theorem malloc_ints_length (n : Int) : (malloc_ints n).length = n.toNat := by
  simp [malloc_ints]

/-- An arrival at an idle scheduler (empty queue): the job is queued alone and
marked as running since `time`, one more job has run, its response time 0 is
recorded, and the call returns 0 unless the job number is `-1`. -/
theorem scheduler_new_job_empty (s : scheduler_t) (job_number time running_time priority : Int)
    (hn : s.jobs.nodes = []) (hsz : s.jobs.size = 0)
    (hrun : 0 ≤ s.jobsRun) (hcap : s.jobsRun < (s.reponses.length : Int))
    (harr : s.jobsRun + 1 ≠ s.arrSize) :
    scheduler_new_job s job_number time running_time priority =
      Except.ok (if job_number ≠ -1 then 0 else -1,
        { s with
          jobs :=
            { s.jobs with
              nodes := [{ new_job_of job_number time running_time priority with
                          firstRun := time }]
              size := 1 }
          jobsRun := s.jobsRun + 1
          reponses := s.reponses.set s.jobsRun.toNat (some 0) }) := by
  by_cases hj : job_number = -1 <;>
    simp [scheduler_new_job, priqueue_peek, priqueue_offer, offer_walk, checkResponses,
      priqueue_at, write_job, new_job_of, hn, hsz, hrun, hcap, harr, wrap32_zero, hj]

/-- The first arrival after start-up: the job is queued alone, marked as
running since `time`, and the call returns 0 unless the job number is `-1`. -/
theorem scheduler_new_job_after_start_up (scheme : scheme_t)
    (cores job_number time running_time priority : Int) :
    scheduler_new_job (scheduler_start_up cores scheme) job_number time running_time priority =
      Except.ok (if job_number ≠ -1 then 0 else -1,
        after_first cores scheme job_number time running_time priority) := by
  rw [scheduler_new_job_empty _ _ _ _ _ rfl rfl
    (by show (0 : Int) ≤ 0; decide)
    (by
      show (0 : Int) < ((malloc_ints MIN_SIZE_ARRS).length : Int)
      rw [malloc_ints_length]; decide)
    (by show (0 : Int) + 1 ≠ MIN_SIZE_ARRS; decide)]
  rfl

/-- An arrival that the comparer places behind a front job that has already
run: the front job stays in front (charged for the elapsed time), the new job
is linked in behind it, and the call returns `-1`. -/
theorem scheduler_new_job_keeps_front (s : scheduler_t) (f : job_t) (t : List job_t)
    (job_number time running_time priority : Int)
    (hn : s.jobs.nodes = f :: t) (hf : f.firstRun ≠ -1)
    (hcmp : s.jobs.comparer (charged f time)
      (new_job_of job_number time running_time priority) ≤ 0) :
    scheduler_new_job s job_number time running_time priority =
      Except.ok (-1,
        { s with
          jobs :=
            { s.jobs with
              nodes := charged f time ::
                (t.takeWhile (fun c => decide (s.jobs.comparer c
                    (new_job_of job_number time running_time priority) ≤ 0)) ++
                  new_job_of job_number time running_time priority ::
                  t.dropWhile (fun c => decide (s.jobs.comparer c
                    (new_job_of job_number time running_time priority) ≤ 0)))
              size := s.jobs.size + 1 } }) := by
  have hf2 : (charged f time).firstRun ≠ -1 := hf
  have hcmp2 : s.jobs.comparer
      { runTime := f.runTime, firstRun := f.firstRun, priority := f.priority,
        timeLeft := wrap32 (f.timeLeft - wrap32 (time - f.firstRun)), jobID := f.jobID,
        arrival := f.arrival }
      { runTime := running_time, firstRun := -1, priority := priority,
        timeLeft := running_time, jobID := job_number, arrival := time } ≤ 0 := hcmp
  simp only [charged] at hf2
  simp [scheduler_new_job, priqueue_peek, priqueue_offer, offer_walk_eq, checkResponses,
    write_job, new_job_of, charged, hn, hf, hf2, hcmp2, List.takeWhile_cons,
    List.dropWhile_cons]

/-- An arrival that the comparer places in front of the front job: the new
job becomes the front and is marked as running since `time`, the old front
(charged for the elapsed time) is second, one more job has run, its response
time 0 is recorded, and the call returns 0 unless both jobs carry the same job
number. -/
theorem scheduler_new_job_preempts (s : scheduler_t) (f : job_t) (t : List job_t)
    (job_number time running_time priority : Int)
    (hn : s.jobs.nodes = f :: t) (hsz : 1 ≤ s.jobs.size)
    (hcmp : 0 < s.jobs.comparer (charged f time)
      (new_job_of job_number time running_time priority))
    (hft : f.firstRun ≠ time)
    (hrun : 0 ≤ s.jobsRun) (hcap : s.jobsRun < (s.reponses.length : Int))
    (harr : s.jobsRun + 1 ≠ s.arrSize) :
    scheduler_new_job s job_number time running_time priority =
      Except.ok (if job_number ≠ f.jobID then 0 else -1,
        { s with
          jobs :=
            { s.jobs with
              nodes := { new_job_of job_number time running_time priority with
                         firstRun := time } :: charged f time :: t
              size := s.jobs.size + 1 }
          jobsRun := s.jobsRun + 1
          reponses := s.reponses.set s.jobsRun.toNat (some 0) }) := by
  have hcmp2 : ¬ s.jobs.comparer
      { runTime := f.runTime, firstRun := f.firstRun, priority := f.priority,
        timeLeft := wrap32 (f.timeLeft - wrap32 (time - f.firstRun)), jobID := f.jobID,
        arrival := f.arrival }
      { runTime := running_time, firstRun := -1, priority := priority,
        timeLeft := running_time, jobID := job_number, arrival := time } ≤ 0 :=
    not_le.2 hcmp
  have hsz2 : ¬ (1 ≥ s.jobs.size + 1) := by omega
  by_cases hj : job_number = f.jobID
  · subst hj
    simp [scheduler_new_job, priqueue_peek, priqueue_offer, offer_walk_eq, checkResponses,
      priqueue_at, at_walk, write_job, new_job_of, charged, hn, hcmp2, hft, hrun, hcap, harr,
      hsz2, wrap32_zero, List.takeWhile_cons, List.dropWhile_cons]
  · simp [scheduler_new_job, priqueue_peek, priqueue_offer, offer_walk_eq, checkResponses,
      priqueue_at, at_walk, write_job, new_job_of, charged, hn, hcmp2, hft, hrun, hcap, harr,
      hsz2, hj, wrap32_zero, List.takeWhile_cons, List.dropWhile_cons]

/-- Under a non-preemptive scheme a front job that has run is ahead of every
arriving job. -/
theorem non_preemptive_comparer_le (scheme : scheme_t) (hs : non_preemptive scheme)
    (f new_job : job_t) (hf : f.firstRun ≠ -1) : get_comparer scheme f new_job ≤ 0 := by
  rcases hs with h | h | h | h <;> subst h <;>
    simp [get_comparer, FCFS_comp, SJF_comp, priComp, RR_comp, hf]

/-- Under a non-preemptive scheme, once the front job has run, every further
arrival returns `-1` and the front job is only charged elapsed time. -/
theorem run_arrivals_non_preemptive (scheme : scheme_t) (hs : non_preemptive scheme)
    (rest : List arrival_t) :
    ∀ (s : scheduler_t) (f : job_t) (t : List job_t),
      s.jobs.comparer = get_comparer scheme → s.jobs.nodes = f :: t → f.firstRun ≠ -1 →
      ∃ tl tail s2,
        run_arrivals s rest = Except.ok (List.replicate rest.length (-1), s2) ∧
        s2.jobs.nodes = { f with timeLeft := tl } :: tail := by
  induction rest with
  | nil =>
    intro s f t _ hn _
    exact ⟨f.timeLeft, t, s, rfl, hn⟩
  | cons a rest ih =>
    intro s f t hc hn hf
    have hcmp : s.jobs.comparer (charged f a.time)
        (new_job_of a.job_number a.time a.running_time a.priority) ≤ 0 := by
      rw [hc]
      exact non_preemptive_comparer_le scheme hs _ _ hf
    obtain ⟨s1, t1, hstep, hc1, hn1⟩ : ∃ s1 t1,
        scheduler_new_job s a.job_number a.time a.running_time a.priority =
          Except.ok (-1, s1) ∧
        s1.jobs.comparer = get_comparer scheme ∧ s1.jobs.nodes = charged f a.time :: t1 :=
      ⟨_, _, scheduler_new_job_keeps_front s f t a.job_number a.time a.running_time
        a.priority hn hf hcmp, hc, rfl⟩
    obtain ⟨tl, tail, s2, hrun, hnodes⟩ := ih s1 (charged f a.time) t1 hc1 hn1 hf
    refine ⟨tl, tail, s2, ?_, hnodes⟩
    simp only [run_arrivals, hstep, hrun, List.length_cons, List.replicate_succ]

/-- C2 (amended): for every scheme, every core count > 0 and every time >= 0,
running_time > 0 and priority, the first `scheduler_new_job` call after
`scheduler_start_up` returns 0 for every job number other than `-1`, the value
the scheduler uses for "no job". -/
theorem scheduler_new_job_first_returns_zero (scheme : scheme_t)
    (cores job_number time running_time priority : Int)
    (_hc : 0 < cores) (_ht : 0 ≤ time) (_hr : 0 < running_time) (hj : job_number ≠ -1) :
    ∃ s1, scheduler_new_job (scheduler_start_up cores scheme) job_number time running_time
        priority = Except.ok (0, s1) ∧
      s1.jobs.nodes =
        [{ new_job_of job_number time running_time priority with firstRun := time }] := by
  rw [scheduler_new_job_after_start_up, if_pos hj]
  exact ⟨_, rfl, rfl⟩

/-- C2 witness: the first scenario of the specification, `startUp(1, FCFS)` and
`jobArrival(1, 0, 10, 0)`. -/
theorem scheduler_new_job_first_returns_zero_witness :
    ∃ s1, scheduler_new_job (scheduler_start_up 1 scheme_t.FCFS) 1 0 10 0 =
        Except.ok (0, s1) ∧
      s1.jobs.nodes = [{ new_job_of 1 0 10 0 with firstRun := 0 }] :=
  scheduler_new_job_first_returns_zero scheme_t.FCFS 1 1 0 10 0
    (by decide) (by decide) (by decide) (by decide)

/-- C2 counterexample: with one core under FCFS, the first arrival of a job
numbered `-1` at time 0 with running time 10 returns `-1`, not 0. -/
theorem scheduler_new_job_first_sentinel :
    Except.map Prod.fst (scheduler_new_job (scheduler_start_up 1 scheme_t.FCFS) (-1) 0 10 0) =
      Except.ok (-1) := by
  rw [scheduler_new_job_after_start_up]
  rfl

/-- C3: with one core and a non-preemptive scheme (FCFS, SJF, PRI or RR), for
every sequence of arrivals at times >= 0 with no completions, every
`scheduler_new_job` call after the first returns `-1`, and the job at the front
of the queue is still the first job: same job number, arrival, first-run time,
running time and priority, whatever the burst and priority of the arriving
jobs (only its remaining-time field is updated by the arrivals).  The sequence
of later arrivals is arbitrary, so this holds after each of them. -/
theorem scheduler_non_preemptive_front (scheme : scheme_t) (hs : non_preemptive scheme)
    (first : arrival_t) (rest : List arrival_t)
    (ht : ∀ a ∈ first :: rest, 0 ≤ a.time) :
    ∃ r0 s1 tl tail s2,
      scheduler_new_job (scheduler_start_up 1 scheme) first.job_number first.time
        first.running_time first.priority = Except.ok (r0, s1) ∧
      s1.jobs.nodes =
        [{ new_job_of first.job_number first.time first.running_time first.priority with
            firstRun := first.time }] ∧
      run_arrivals s1 rest = Except.ok (List.replicate rest.length (-1), s2) ∧
      s2.jobs.nodes =
        { new_job_of first.job_number first.time first.running_time first.priority with
          firstRun := first.time, timeLeft := tl } :: tail := by
  have h0 : (0 : Int) ≤ first.time := ht first (List.mem_cons_self _ _)
  have hf : ({ new_job_of first.job_number first.time first.running_time first.priority with
      firstRun := first.time } : job_t).firstRun ≠ -1 := by
    show first.time ≠ -1
    omega
  obtain ⟨tl, tail, s2, hrun, hnodes⟩ :=
    run_arrivals_non_preemptive scheme hs rest
      (after_first 1 scheme first.job_number first.time first.running_time first.priority)
      _ [] rfl rfl hf
  exact ⟨_, _, tl, tail, s2, scheduler_new_job_after_start_up _ _ _ _ _ _, rfl, hrun, hnodes⟩

/-- C3 witness: the FCFS scenario of the specification, `jobArrival(1, 0, 10, 0)`
then `jobArrival(2, 5, 3, 0)`. -/
theorem scheduler_non_preemptive_front_witness :
    ∃ r0 s1 tl tail s2,
      scheduler_new_job (scheduler_start_up 1 scheme_t.FCFS) 1 0 10 0 = Except.ok (r0, s1) ∧
      s1.jobs.nodes = [{ new_job_of 1 0 10 0 with firstRun := 0 }] ∧
      run_arrivals s1 [⟨2, 5, 3, 0⟩] = Except.ok ([-1], s2) ∧
      s2.jobs.nodes = { new_job_of 1 0 10 0 with firstRun := 0, timeLeft := tl } :: tail :=
  scheduler_non_preemptive_front scheme_t.FCFS (Or.inl rfl) ⟨1, 0, 10, 0⟩ [⟨2, 5, 3, 0⟩]
    (by decide)

theorem after_first_cap (cores : Int) (scheme : scheme_t)
    (job_number time running_time priority : Int) :
    (after_first cores scheme job_number time running_time priority).jobsRun <
      ((after_first cores scheme job_number time running_time priority).reponses.length : Int) := by
  show (1 : Int) < (((malloc_ints MIN_SIZE_ARRS).set 0 (some 0)).length : Int)
  rw [List.length_set, malloc_ints_length]
  decide

/-- The second arrival under PSJF with one core, when none of the `int`
subtractions `t2 - t1`, `b1 - (t2 - t1)` and `(b1 - (t2 - t1)) - b2` leaves the
32-bit range and the two jobs have different job numbers: the call returns 0
with the new job in front exactly when `b2 < b1 - (t2 - t1)`, and `-1` with the
first job still in front otherwise. -/
theorem psjf_second_arrival_in_range (j1 t1 b1 p1 j2 t2 b2 p2 : Int)
    (ht1 : 0 ≤ t1) (ht : t1 < t2) (hj : j1 ≠ j2)
    (h1 : int32 (t2 - t1)) (h2 : int32 (b1 - (t2 - t1)))
    (h3 : int32 (b1 - (t2 - t1) - b2)) :
    ∃ r1 s1,
      scheduler_new_job (scheduler_start_up 1 scheme_t.PSJF) j1 t1 b1 p1 =
        Except.ok (r1, s1) ∧
      (b2 < b1 - (t2 - t1) →
        ∃ s2, scheduler_new_job s1 j2 t2 b2 p2 = Except.ok (0, s2) ∧
          s2.jobs.nodes =
            [{ new_job_of j2 t2 b2 p2 with firstRun := t2 },
             { new_job_of j1 t1 b1 p1 with firstRun := t1, timeLeft := b1 - (t2 - t1) }]) ∧
      (¬ b2 < b1 - (t2 - t1) →
        ∃ s2, scheduler_new_job s1 j2 t2 b2 p2 = Except.ok (-1, s2) ∧
          s2.jobs.nodes =
            [{ new_job_of j1 t1 b1 p1 with firstRun := t1, timeLeft := b1 - (t2 - t1) },
             new_job_of j2 t2 b2 p2]) := by
  have hch : charged { new_job_of j1 t1 b1 p1 with firstRun := t1 } t2 =
      { new_job_of j1 t1 b1 p1 with firstRun := t1, timeLeft := b1 - (t2 - t1) } := by
    show ({ new_job_of j1 t1 b1 p1 with
        firstRun := t1, timeLeft := wrap32 (b1 - wrap32 (t2 - t1)) } : job_t) = _
    rw [wrap32_of_range _ h1.1 h1.2, wrap32_of_range _ h2.1 h2.2]
  have hcmp : (after_first 1 scheme_t.PSJF j1 t1 b1 p1).jobs.comparer
      (charged { new_job_of j1 t1 b1 p1 with firstRun := t1 } t2) (new_job_of j2 t2 b2 p2) =
      b1 - (t2 - t1) - b2 := by
    rw [hch]
    show wrap32 (b1 - (t2 - t1) - b2) = _
    exact wrap32_of_range _ h3.1 h3.2
  refine ⟨_, _, scheduler_new_job_after_start_up _ _ _ _ _ _, ?_, ?_⟩
  · intro hlt
    have hpre := scheduler_new_job_preempts (after_first 1 scheme_t.PSJF j1 t1 b1 p1)
      { new_job_of j1 t1 b1 p1 with firstRun := t1 } [] j2 t2 b2 p2 rfl
      (by show (1 : Int) ≤ 1; decide) (by rw [hcmp]; omega)
      (by show t1 ≠ t2; omega) (by show (0 : Int) ≤ 1; decide)
      (after_first_cap _ _ _ _ _ _) (by show (1 : Int) + 1 ≠ MIN_SIZE_ARRS; decide)
    have hj2 : j2 ≠ ({ new_job_of j1 t1 b1 p1 with firstRun := t1 } : job_t).jobID :=
      fun h => hj h.symm
    rw [if_pos hj2, hch] at hpre
    exact ⟨_, hpre, rfl⟩
  · intro hge
    have hkeep := scheduler_new_job_keeps_front (after_first 1 scheme_t.PSJF j1 t1 b1 p1)
      { new_job_of j1 t1 b1 p1 with firstRun := t1 } [] j2 t2 b2 p2 rfl
      (by show t1 ≠ -1; omega) (by rw [hcmp]; omega)
    rw [hch] at hkeep
    exact ⟨_, hkeep, rfl⟩

/-- C4: under PSJF with one core, for a first job arriving at time `t1 >= 0`
with burst `b1` and a second job arriving at time `t2 > t1` with burst `b2`, no
completion in between, the second `scheduler_new_job` returns 0 (it preempts:
the new job becomes the queue front and the first job, with remaining time
`b1 - (t2 - t1)`, is second) exactly when `b2 < b1 - (t2 - t1)`, and returns `-1`
with the first job still at the front otherwise.  The inputs are those of the
interface: job numbers are unique (`j1 != j2`), bursts are positive `int`
values, and job 1, running since `t1` and not completed at `t2`, has not used up
its burst (`t2 - t1 <= b1`). -/
theorem scheduler_psjf_second_arrival (j1 t1 b1 p1 j2 t2 b2 p2 : Int)
    (ht1 : 0 ≤ t1) (ht : t1 < t2) (hj : j1 ≠ j2)
    (hb1 : b1 ≤ 2147483647) (hb2 : 0 < b2 ∧ b2 ≤ 2147483647) (hrun : t2 - t1 ≤ b1) :
    ∃ r1 s1,
      scheduler_new_job (scheduler_start_up 1 scheme_t.PSJF) j1 t1 b1 p1 =
        Except.ok (r1, s1) ∧
      (b2 < b1 - (t2 - t1) →
        ∃ s2, scheduler_new_job s1 j2 t2 b2 p2 = Except.ok (0, s2) ∧
          s2.jobs.nodes =
            [{ new_job_of j2 t2 b2 p2 with firstRun := t2 },
             { new_job_of j1 t1 b1 p1 with firstRun := t1, timeLeft := b1 - (t2 - t1) }]) ∧
      (¬ b2 < b1 - (t2 - t1) →
        ∃ s2, scheduler_new_job s1 j2 t2 b2 p2 = Except.ok (-1, s2) ∧
          s2.jobs.nodes =
            [{ new_job_of j1 t1 b1 p1 with firstRun := t1, timeLeft := b1 - (t2 - t1) },
             new_job_of j2 t2 b2 p2]) :=
  psjf_second_arrival_in_range j1 t1 b1 p1 j2 t2 b2 p2 ht1 ht hj
    ⟨by omega, by omega⟩ ⟨by omega, by omega⟩ ⟨by omega, by omega⟩

/-- C4 witness: the PSJF scenario of the specification; job 1 (time 0, burst
10) has 6 left at time 4 when job 2 (burst 2) arrives, and the second call
returns 0. -/
theorem scheduler_psjf_second_arrival_witness :
    ∃ r1 s1,
      scheduler_new_job (scheduler_start_up 1 scheme_t.PSJF) 1 0 10 0 = Except.ok (r1, s1) ∧
      ∃ s2, scheduler_new_job s1 2 4 2 0 = Except.ok (0, s2) ∧
        s2.jobs.nodes =
          [{ new_job_of 2 4 2 0 with firstRun := 4 },
           { new_job_of 1 0 10 0 with firstRun := 0, timeLeft := 10 - (4 - 0) }] :=
  match scheduler_psjf_second_arrival 1 0 10 0 2 4 2 0 (by decide) (by decide) (by decide)
      (by decide) ⟨by decide, by decide⟩ (by decide) with
  | ⟨r1, s1, h1, h2, _⟩ => ⟨r1, s1, h1, h2 (by decide)⟩

/-- Outside the interface's inputs `PSJF_comp` can overflow: job 1 arrives at
time 0 with burst 1 and is still queued when job 2 arrives at time 2147483647
with burst 3.  `3 < 1 - (2147483647 - 0)` is false, yet the second call returns
0: the `int` subtraction `-2147483646 - 3` does not fit 32 bits. -/
theorem PSJF_comp_overflow_scenario :
    ¬ ((3 : Int) < 1 - (2147483647 - 0)) ∧
    Except.map Prod.fst
      (run_arrivals (scheduler_start_up 1 scheme_t.PSJF)
        [⟨1, 0, 1, 0⟩, ⟨2, 2147483647, 3, 0⟩]) = Except.ok [0, 0] := by
  refine ⟨by decide, ?_⟩
  have h1 := scheduler_new_job_after_start_up scheme_t.PSJF 1 1 0 1 0
  have h2 := scheduler_new_job_preempts (after_first 1 scheme_t.PSJF 1 0 1 0)
    { new_job_of 1 0 1 0 with firstRun := 0 } [] 2 2147483647 3 0 rfl
    (by show (1 : Int) ≤ 1; decide) (by decide) (by decide) (by show (0 : Int) ≤ 1; decide)
    (after_first_cap _ _ _ _ _ _) (by show (1 : Int) + 1 ≠ MIN_SIZE_ARRS; decide)
  simp only [run_arrivals, h1, h2]
  rfl

/-- Two arrivals after start-up where the second is placed behind the first:
the calls return 0 and `-1`, and the queue holds the first job (charged the
elapsed time) followed by the second. -/
theorem run_two_arrivals_keep (cores : Int) (scheme : scheme_t) (a b : arrival_t)
    (ha : a.job_number ≠ -1) (hta : a.time ≠ -1)
    (hcmp : get_comparer scheme
      (charged { new_job_of a.job_number a.time a.running_time a.priority with
        firstRun := a.time } b.time)
      (new_job_of b.job_number b.time b.running_time b.priority) ≤ 0) :
    run_arrivals (scheduler_start_up cores scheme) [a, b] =
      Except.ok ([0, -1], after_second_behind cores scheme a b) := by
  have h1 := scheduler_new_job_after_start_up scheme cores a.job_number a.time a.running_time
    a.priority
  rw [if_pos ha] at h1
  have h2 := scheduler_new_job_keeps_front
    (after_first cores scheme a.job_number a.time a.running_time a.priority)
    { new_job_of a.job_number a.time a.running_time a.priority with firstRun := a.time } []
    b.job_number b.time b.running_time b.priority rfl hta hcmp
  simp only [run_arrivals, h1, h2]
  rfl

/-- C5 (the code at the failing input): after `scheduler_start_up(2, FCFS)`,
jobs 1 and 2 arrive at times 0 and 1 with no completion.  The second
`scheduler_new_job` returns `-1`, not the idle core 1: the job is queued behind
job 1, and the core count 2 has only been stored. -/
theorem scheduler_two_cores_second_arrival :
    ∃ s, run_arrivals (scheduler_start_up 2 scheme_t.FCFS)
        [⟨1, 0, 10, 0⟩, ⟨2, 1, 10, 0⟩] = Except.ok ([0, -1], s) ∧
      s.jobs.nodes.map (fun j => j.jobID) = [1, 2] ∧ s.availableCores = 2 :=
  ⟨_, run_two_arrivals_keep 2 scheme_t.FCFS ⟨1, 0, 10, 0⟩ ⟨2, 1, 10, 0⟩
    (by decide) (by decide) (by decide), rfl, rfl⟩

/-- C6 (the code at the failing input): the FCFS scenario of the
specification.  After `jobArrival(1, 0, 10, 0)` and `jobArrival(2, 5, 3, 0)`
job 2 is waiting behind job 1, and `scheduler_job_finished(0, 1, 10)` returns
`-1`, not 2, and leaves the queue as it was. -/
theorem scheduler_job_finished_fcfs_scenario :
    ∃ s, run_arrivals (scheduler_start_up 1 scheme_t.FCFS)
        [⟨1, 0, 10, 0⟩, ⟨2, 5, 3, 0⟩] = Except.ok ([0, -1], s) ∧
      s.jobs.nodes.map (fun j => j.jobID) = [1, 2] ∧
      (scheduler_job_finished s 0 1 10).1 = -1 ∧
      (scheduler_job_finished s 0 1 10).2.jobs.nodes.map (fun j => j.jobID) = [1, 2] :=
  ⟨_, run_two_arrivals_keep 1 scheme_t.FCFS ⟨1, 0, 10, 0⟩ ⟨2, 5, 3, 0⟩
    (by decide) (by decide) (by decide), rfl, rfl, rfl⟩

/-- C7 (the code at the failing input): under RR with one core, jobs 1 and 2
arrive at times 0 and 1 and neither has finished.
`scheduler_quantum_expired(0, 2)` returns `-1`, not the waiting job 2, and job 1
is still in front of job 2 instead of at the back. -/
theorem scheduler_quantum_expired_rr_scenario :
    ∃ s, run_arrivals (scheduler_start_up 1 scheme_t.RR)
        [⟨1, 0, 10, 0⟩, ⟨2, 1, 10, 0⟩] = Except.ok ([0, -1], s) ∧
      s.jobs.nodes.map (fun j => j.jobID) = [1, 2] ∧
      (scheduler_quantum_expired s 0 2).1 = -1 ∧
      (scheduler_quantum_expired s 0 2).2.jobs.nodes.map (fun j => j.jobID) = [1, 2] :=
  ⟨_, run_two_arrivals_keep 1 scheme_t.RR ⟨1, 0, 10, 0⟩ ⟨2, 1, 10, 0⟩
    (by decide) (by decide) (by decide), rfl, rfl, rfl⟩

/-- C8 (the code at the failing input): a single job with no contention, one
core, arrival at time 0 with burst 10, completion reported at time 10.
`scheduler_average_turnaround_time` returns 0, not the burst 10 (the waiting and
response averages are 0). -/
theorem scheduler_average_turnaround_single_job :
    ∃ s, scheduler_new_job (scheduler_start_up 1 scheme_t.FCFS) 1 0 10 0 =
        Except.ok (0, s) ∧
      scheduler_average_turnaround_time (scheduler_job_finished s 0 1 10).2 = 0 ∧
      scheduler_average_turnaround_time (scheduler_job_finished s 0 1 10).2 ≠ 10 ∧
      scheduler_average_waiting_time (scheduler_job_finished s 0 1 10).2 = 0 ∧
      scheduler_average_response_time (scheduler_job_finished s 0 1 10).2 = 0 :=
  ⟨_, scheduler_new_job_after_start_up scheme_t.FCFS 1 1 0 10 0, rfl,
    by simp [scheduler_average_turnaround_time], rfl, rfl⟩

/-! ## Theorems: index access, removal and the size counter -/

/-- Within range `priqueue_at` returns the element at that position. -/
theorem at_walk_getElem {α : Type} (l : List α) (n : Nat) (h : n < l.length) :
    at_walk l n = Except.ok (l.get ⟨n, h⟩) := by
  induction l generalizing n with
  | nil => simp at h
  | cons e t ih =>
    cases n with
    | zero => rfl
    | succ n => exact ih n (by simpa using h)

/-- The parts of the contract of `priqueue_at` that the code meets on a queue
whose size counter agrees with its chain: the element at position `index` for
`0 <= index < size`, and `NULL` for `index >= size`; the queue is returned as
it was. -/
theorem priqueue_at_in_range {α : Type} (q : priqueue_t α) (hq : q.consistent) (index : Int) :
    (∀ (h0 : 0 ≤ index) (h1 : index < q.size),
      priqueue_at q index =
        Except.ok (some (q.nodes.get ⟨index.toNat, by
          have : q.size = (q.nodes.length : Int) := hq
          omega⟩), q)) ∧
    (index ≥ q.size → priqueue_at q index = Except.ok (none, q)) := by
  constructor
  · intro h0 h1
    have hlen : index.toNat < q.nodes.length := by
      have : q.size = (q.nodes.length : Int) := hq
      omega
    simp [priqueue_at, not_le.2 h1, at_walk_getElem q.nodes index.toNat hlen]
  · intro h
    simp [priqueue_at, h]

/-- A negative index passes the guard of `priqueue_at`: on a non-empty chain
the front element is returned, on an empty chain the `NULL` head is
dereferenced. -/
theorem priqueue_at_negative {α : Type} (q : priqueue_t α) (index : Int) (hneg : index < 0)
    (hsize : 0 ≤ q.size) :
    priqueue_at q index =
      match q.nodes with
      | [] => Except.error Fault.null_deref
      | e :: _ => Except.ok (some e, q) := by
  have h1 : ¬ index ≥ q.size := by omega
  have h2 : index.toNat = 0 := by omega
  unfold priqueue_at
  rw [if_neg h1, h2]
  cases q.nodes <;> rfl

/-- C11 (the code at the failing input): on the queue holding 7, 8 (size 2)
`priqueue_at(q, -1)` returns the front element 7, not `NULL`; on the empty queue
`priqueue_at(q, -1)` dereferences the `NULL` head.  The only guard is
`index >= size`, which a negative index passes. -/
theorem priqueue_at_negative_index :
    priqueue_at ({ nodes := [7, 8], comparer := fun a b => a - b, size := 2 } : priqueue_t Int)
        (-1) =
      Except.ok (some 7,
        ({ nodes := [7, 8], comparer := fun a b => a - b, size := 2 } : priqueue_t Int)) ∧
    priqueue_at (priqueue_init (fun a b : Int => a - b)) (-1) =
      Except.error Fault.null_deref :=
  ⟨rfl, rfl⟩

/-- The effect of `priqueue_remove_at` past its guard: with `steps` links
followed, the node at position `steps + 1` is unlinked and the element of the
node after it is returned; the call faults when there is no such node. -/
theorem remove_at_unlink_eq {α : Type} (l : List α) (steps : Nat) :
    remove_at_unlink l steps =
      match l.drop (steps + 2) with
      | [] => Except.error Fault.null_deref
      | element :: rest => Except.ok (element, l.take (steps + 1) ++ element :: rest) := by
  induction l generalizing steps with
  | nil => simp [remove_at_unlink]
  | cons temp next ih =>
    cases steps with
    | zero =>
      cases next with
      | nil => rfl
      | cons n next2 =>
        cases next2 with
        | nil => rfl
        | cons element rest => rfl
    | succ steps =>
      have h := ih steps
      simp only [remove_at_unlink, h, List.drop_succ_cons, List.take_succ_cons]
      cases List.drop (steps + 2) next <;> rfl

/-- C12 (the code at the failing input): on the queue 10, 20, 30 (size 3)
`priqueue_remove_at(q, 0)` returns 30, not the element 10 at index 0; afterwards
the chain from the head is 10, 30 (not 20, 30) and the node holding 30 has been
freed while still linked.  Index 1 gives the same result (not 20 and the chain
10, 30 with live nodes), and index 2 dereferences `NULL`. -/
theorem priqueue_remove_at_wrong_node :
    (priqueue_remove_at
        ({ nodes := [10, 20, 30], comparer := fun a b => a - b, size := 3 } : priqueue_t Int)
        0).toOption.map (fun r => (r.element, r.queue.nodes, r.freed, r.queue.size)) =
      some (some 30, [10, 30], some 1, 2) ∧
    (priqueue_at
        ({ nodes := [10, 20, 30], comparer := fun a b => a - b, size := 3 } : priqueue_t Int)
        0).toOption.map (fun r => r.1) = some (some 10) ∧
    (priqueue_remove_at
        ({ nodes := [10, 20, 30], comparer := fun a b => a - b, size := 3 } : priqueue_t Int)
        1).toOption.map (fun r => (r.element, r.queue.nodes, r.freed, r.queue.size)) =
      some (some 30, [10, 30], some 1, 2) ∧
    (priqueue_remove_at
        ({ nodes := [10, 20, 30], comparer := fun a b => a - b, size := 3 } : priqueue_t Int)
        2).toOption.map (fun r => (r.element, r.queue.nodes, r.freed, r.queue.size)) =
      none := by
  refine ⟨by decide, by decide, by decide, by decide⟩

/-- C13: for every queue and every index >= size (in particular every index
>= 0 on the empty queue, whose size is 0), `priqueue_remove_at` returns `NULL`,
frees nothing and leaves the queue (contents, order and size) unchanged. -/
theorem priqueue_remove_at_out_of_range {α : Type} (q : priqueue_t α) (index : Int)
    (h : index ≥ q.size) :
    priqueue_remove_at q index =
      Except.ok { element := none, queue := q, freed := none } := by
  simp [priqueue_remove_at, h]

/-- C13 witness: index 0 on the freshly initialised (empty) queue. -/
theorem priqueue_remove_at_out_of_range_witness :
    priqueue_remove_at (priqueue_init (fun a b : Int => a - b)) 0 =
      Except.ok
        { element := none, queue := priqueue_init (fun a b : Int => a - b), freed := none } :=
  priqueue_remove_at_out_of_range (priqueue_init (fun a b : Int => a - b)) 0 (by decide)

/-- On a chain of three or more nodes, and for an element pointer, the loop of
`priqueue_remove` is still running after any number of passes: `jump` is set to
the third node again and again. -/
theorem remove_loop_diverges {α : Type} (a b c : α) (rest : List α) (e : α) (fuel : Nat) :
    ∀ (jump : List α) (sum : Int),
      remove_loop (a :: b :: c :: rest) (void_ptr.element e) fuel jump sum false = none ∨
      ∃ r, remove_loop (a :: b :: c :: rest) (void_ptr.element e) fuel jump sum false =
          some (Except.ok r) ∧ jump = [] := by
  induction fuel with
  | zero => intro jump sum; exact Or.inl rfl
  | succ fuel ih =>
    intro jump sum
    cases jump with
    | nil => exact Or.inr ⟨(sum, false), rfl, rfl⟩
    | cons j jt =>
      rcases ih (c :: rest) sum with h | ⟨r, _, h⟩
      · exact Or.inl (by simpa [remove_loop, node_is_ptr] using h)
      · exact absurd h (by simp)

/-- When `ptr` is the address of the head node the test `temp == ptr` holds:
on a queue of two nodes the call returns 1 and leaves the head node freed but
still linked, with both entries and the size as they were; on a queue of three
nodes the second pass reads the freed node. -/
theorem priqueue_remove_head_address :
    (∀ fuel, 2 ≤ fuel →
      priqueue_remove fuel
        ({ nodes := [10, 20], comparer := fun a b => a - b, size := 2 } : priqueue_t Int)
        (void_ptr.node 0) =
      some (Except.ok
        { count := 1
          queue := ({ nodes := [10, 20], comparer := fun a b => a - b, size := 2 } :
            priqueue_t Int)
          head_freed := true })) ∧
    (∀ fuel, 2 ≤ fuel →
      priqueue_remove fuel
        ({ nodes := [10, 20, 30], comparer := fun a b => a - b, size := 3 } : priqueue_t Int)
        (void_ptr.node 0) =
      some (Except.error Fault.use_after_free)) := by
  refine ⟨?_, ?_⟩
  · intro fuel h
    obtain ⟨k, rfl⟩ : ∃ k, fuel = k + 2 := ⟨fuel - 2, by omega⟩
    rfl
  · intro fuel h
    obtain ⟨k, rfl⟩ : ∃ k, fuel = k + 2 := ⟨fuel - 2, by omega⟩
    rfl

/-- C14 (the code at failing inputs): on the queue 10, 20 `priqueue_remove(q, 10)`
(the element pointer 10) returns 0 and leaves both entries in place, although
one entry is 10 (the claim requires 1 and the queue 20); on the queue 10, 20, 30
the loop never ends, whatever the number of passes allowed; on the queue 10 the
call dereferences `NULL`. -/
theorem priqueue_remove_scenarios :
    (∀ fuel, 2 ≤ fuel →
      priqueue_remove fuel
        ({ nodes := [10, 20], comparer := fun a b => a - b, size := 2 } : priqueue_t Int)
        (void_ptr.element 10) =
      some (Except.ok
        { count := 0
          queue := ({ nodes := [10, 20], comparer := fun a b => a - b, size := 2 } :
            priqueue_t Int)
          head_freed := false })) ∧
    (∀ fuel,
      priqueue_remove fuel
        ({ nodes := [10, 20, 30], comparer := fun a b => a - b, size := 3 } : priqueue_t Int)
        (void_ptr.element 10) = none) ∧
    (∀ fuel, 1 ≤ fuel →
      priqueue_remove fuel
        ({ nodes := [10], comparer := fun a b => a - b, size := 1 } : priqueue_t Int)
        (void_ptr.element 10) =
      some (Except.error Fault.null_deref)) := by
  refine ⟨?_, ?_, ?_⟩
  · intro fuel h
    obtain ⟨k, rfl⟩ : ∃ k, fuel = k + 2 := ⟨fuel - 2, by omega⟩
    rfl
  · intro fuel
    rcases remove_loop_diverges (10 : Int) 20 30 [] 10 fuel [10, 20, 30] 0 with h | ⟨r, _, h⟩
    · simp [priqueue_remove, h]
    · exact absurd h (by simp)
  · intro fuel h
    obtain ⟨k, rfl⟩ : ∃ k, fuel = k + 1 := ⟨fuel - 1, by omega⟩
    rfl

theorem priqueue_offer_consistent {α : Type} (q : priqueue_t α) (ptr : α)
    (hq : q.consistent) : (priqueue_offer q ptr).2.consistent := by
  have hq2 : q.size = (q.nodes.length : Int) := hq
  show (priqueue_offer q ptr).2.size = ((priqueue_offer q ptr).2.nodes.length : Int)
  rw [priqueue_offer_size, priqueue_offer_nodes, hq2]
  have : (q.nodes.takeWhile (fun c => decide (q.comparer c ptr ≤ 0))).length +
      (q.nodes.dropWhile (fun c => decide (q.comparer c ptr ≤ 0))).length =
      q.nodes.length := by
    rw [← List.length_append, List.takeWhile_append_dropWhile]
  simp only [List.length_append, List.length_cons]
  omega

theorem priqueue_poll_consistent {α : Type} (q : priqueue_t α)
    (hq : q.consistent) : (priqueue_poll q).2.consistent := by
  have hq2 : q.size = (q.nodes.length : Int) := hq
  unfold priqueue_poll
  cases hn : q.nodes with
  | nil => exact hq
  | cons e t =>
    show q.size - 1 = ((t.length : Nat) : Int)
    rw [hq2, hn]
    simp

theorem run_ops_consistent {α : Type} (ops : List (queue_op α)) :
    ∀ q : priqueue_t α, q.consistent → (run_ops q ops).consistent := by
  induction ops with
  | nil => intro q hq; exact hq
  | cons op rest ih =>
    intro q hq
    cases op with
    | offer ptr => exact ih _ (priqueue_offer_consistent q ptr hq)
    | poll => exact ih _ (priqueue_poll_consistent q hq)

/-- Every element on the chain after a sequence of calls was on the chain
before or has been offered by one of the calls. -/
theorem run_ops_nodes_mem {α : Type} (ops : List (queue_op α)) :
    ∀ (q : priqueue_t α) (e : α), e ∈ (run_ops q ops).nodes →
      e ∈ q.nodes ∨ queue_op.offer e ∈ ops := by
  induction ops with
  | nil => intro q e h; exact Or.inl h
  | cons op rest ih =>
    intro q e h
    cases op with
    | offer ptr =>
      rcases ih (priqueue_offer q ptr).2 e h with h1 | h1
      · rw [priqueue_offer_nodes] at h1
        rcases List.mem_append.1 h1 with h2 | h2
        · exact Or.inl ((List.takeWhile_sublist _).subset h2)
        · rcases List.mem_cons.1 h2 with h3 | h3
          · rw [h3]; exact Or.inr (List.mem_cons_self _ _)
          · exact Or.inl ((List.dropWhile_sublist _).subset h3)
      · exact Or.inr (List.mem_cons_of_mem _ h1)
    | poll =>
      rcases ih (priqueue_poll q).2 e h with h1 | h1
      · left
        unfold priqueue_poll at h1
        cases hn : q.nodes with
        | nil =>
          rw [hn] at h1
          have h2 : e ∈ q.nodes := h1
          rw [hn] at h2
          exact h2
        | cons x t =>
          rw [hn] at h1
          exact List.mem_cons_of_mem _ h1
      · exact Or.inr (List.mem_cons_of_mem _ h1)

/-- C19 (amended): after `priqueue_init` followed by any finite sequence of
`priqueue_offer` and `priqueue_poll` calls, with any comparator and element
pointers that may be `NULL`, `priqueue_size` equals the number of nodes
reachable from the head, is never negative, and is 0 exactly when the head is
`NULL`; `priqueue_peek` returns `NULL` exactly when `priqueue_size` is 0 or the
front element is itself the `NULL` pointer, so when no `NULL` pointer has been
offered `priqueue_size` is 0 exactly when `priqueue_peek` returns `NULL`. -/
theorem priqueue_size_invariant {β : Type} (cmp : Option β → Option β → Int)
    (ops : List (queue_op (Option β))) :
    priqueue_size (run_ops (priqueue_init cmp) ops) =
      ((run_ops (priqueue_init cmp) ops).nodes.length : Int) ∧
    0 ≤ priqueue_size (run_ops (priqueue_init cmp) ops) ∧
    (priqueue_size (run_ops (priqueue_init cmp) ops) = 0 ↔
      (run_ops (priqueue_init cmp) ops).nodes = []) ∧
    (returned_pointer (priqueue_peek (run_ops (priqueue_init cmp) ops)).1 = none ↔
      (priqueue_size (run_ops (priqueue_init cmp) ops) = 0 ∨
        (run_ops (priqueue_init cmp) ops).nodes.head? = some none)) ∧
    (queue_op.offer none ∉ ops →
      (priqueue_size (run_ops (priqueue_init cmp) ops) = 0 ↔
        returned_pointer (priqueue_peek (run_ops (priqueue_init cmp) ops)).1 = none)) := by
  have h : (run_ops (priqueue_init cmp) ops).consistent :=
    run_ops_consistent ops (priqueue_init cmp) rfl
  have h2 : (run_ops (priqueue_init cmp) ops).size =
      ((run_ops (priqueue_init cmp) ops).nodes.length : Int) := h
  have hmem := run_ops_nodes_mem ops (priqueue_init cmp)
  have hz : (run_ops (priqueue_init cmp) ops).size = 0 ↔
      (run_ops (priqueue_init cmp) ops).nodes = [] := by
    rw [h2]
    cases (run_ops (priqueue_init cmp) ops).nodes with
    | nil => simp
    | cons e t =>
      simp only [List.length_cons, Nat.cast_add, Nat.cast_one]
      constructor
      · intro h0; omega
      · intro h0; cases h0
  have hpk : returned_pointer (priqueue_peek (run_ops (priqueue_init cmp) ops)).1 = none ↔
      ((run_ops (priqueue_init cmp) ops).size = 0 ∨
        (run_ops (priqueue_init cmp) ops).nodes.head? = some none) := by
    rw [hz]
    unfold priqueue_peek returned_pointer
    cases (run_ops (priqueue_init cmp) ops).nodes with
    | nil => simp
    | cons e t =>
      cases e with
      | none => simp
      | some v => simp
  refine ⟨h2, ?_, hz, hpk, ?_⟩
  · show 0 ≤ (run_ops (priqueue_init cmp) ops).size
    rw [h2]; exact Int.natCast_nonneg _
  · intro hno
    show (run_ops (priqueue_init cmp) ops).size = 0 ↔ _
    rw [hpk]
    constructor
    · intro h0; exact Or.inl h0
    · intro h0
      rcases h0 with h0 | h0
      · exact h0
      · exfalso
        have hin : (none : Option β) ∈ (run_ops (priqueue_init cmp) ops).nodes := by
          cases hn : (run_ops (priqueue_init cmp) ops).nodes with
          | nil => rw [hn] at h0; cases h0
          | cons e t =>
            rw [hn] at h0
            have : e = none := Option.some.inj h0
            rw [this]; exact List.mem_cons_self _ _
        rcases hmem none hin with h1 | h1
        · cases h1
        · exact hno h1

/-- C19 witness: offering the pointers to 3 and 5 with a poll in between; the
size is 1 and `priqueue_peek` does not return `NULL`. -/
theorem priqueue_size_invariant_witness :
    priqueue_size (run_ops (priqueue_init (fun (_ _ : Option Nat) => (0 : Int)))
      [queue_op.offer (some 3), queue_op.poll, queue_op.offer (some 5)]) = 1 ∧
    (priqueue_size (run_ops (priqueue_init (fun (_ _ : Option Nat) => (0 : Int)))
        [queue_op.offer (some 3), queue_op.poll, queue_op.offer (some 5)]) = 0 ↔
      returned_pointer (priqueue_peek
        (run_ops (priqueue_init (fun (_ _ : Option Nat) => (0 : Int)))
          [queue_op.offer (some 3), queue_op.poll, queue_op.offer (some 5)])).1 = none) :=
  ⟨rfl,
    (priqueue_size_invariant (fun (_ _ : Option Nat) => (0 : Int))
      [queue_op.offer (some 3), queue_op.poll, queue_op.offer (some 5)]).2.2.2.2
      (by simp)⟩

/-- C19 counterexample: after `priqueue_init` and the single call
`priqueue_offer(q, NULL)` (with the comparator that returns 0) `priqueue_size` is
1, not 0, while `priqueue_peek` returns `NULL`, the element stored at the
front. -/
theorem priqueue_size_null_element :
    priqueue_size (run_ops (priqueue_init (fun (_ _ : Option Nat) => (0 : Int)))
      [queue_op.offer none]) = 1 ∧
    returned_pointer (priqueue_peek
      (run_ops (priqueue_init (fun (_ _ : Option Nat) => (0 : Int)))
        [queue_op.offer none])).1 = none ∧
    ¬ (priqueue_size (run_ops (priqueue_init (fun (_ _ : Option Nat) => (0 : Int)))
        [queue_op.offer none]) = 0 ↔
      returned_pointer (priqueue_peek
        (run_ops (priqueue_init (fun (_ _ : Option Nat) => (0 : Int)))
          [queue_op.offer none])).1 = none) := by
  refine ⟨rfl, rfl, ?_⟩
  intro h
  have h1 := h.2 rfl
  exact absurd h1 (by decide)

/-! ## Theorems: remaining time and the priority comparer -/

theorem run_arrivals_cons_ok (s s1 s2 : scheduler_t) (a : arrival_t) (rest : List arrival_t)
    (r : Int) (rs : List Int)
    (h1 : scheduler_new_job s a.job_number a.time a.running_time a.priority =
      Except.ok (r, s1))
    (h2 : run_arrivals s1 rest = Except.ok (rs, s2)) :
    run_arrivals s (a :: rest) = Except.ok (r :: rs, s2) := by
  simp only [run_arrivals, h1, h2]

theorem run_arrivals_cons_error (s : scheduler_t) (a : arrival_t) (rest : List arrival_t)
    (f : Fault)
    (h1 : scheduler_new_job s a.job_number a.time a.running_time a.priority =
      Except.error f) :
    run_arrivals s (a :: rest) = Except.error f := by
  simp only [run_arrivals, h1]

theorem run_arrivals_cons_ok_error (s s1 : scheduler_t) (a : arrival_t)
    (rest : List arrival_t) (r : Int) (f : Fault)
    (h1 : scheduler_new_job s a.job_number a.time a.running_time a.priority =
      Except.ok (r, s1))
    (h2 : run_arrivals s1 rest = Except.error f) :
    run_arrivals s (a :: rest) = Except.error f := by
  simp only [run_arrivals, h1, h2]

/-- C16 (the code at the failing input): under FCFS with one core job 1
arrives at time 0 with burst 10 and starts at once (first run 0); jobs 2 and 3
arrive at times 2 and 5.  After the arrival at time 5 the remaining time of job
1 is 3, not `10 - (5 - 0) = 5`: each arrival subtracts the whole time since the
first run from the already reduced value (10 - 2 = 8, then 8 - 5 = 3). -/
theorem scheduler_time_left_charged_twice :
    ∃ s, run_arrivals (scheduler_start_up 1 scheme_t.FCFS)
        [⟨1, 0, 10, 0⟩, ⟨2, 2, 5, 0⟩, ⟨3, 5, 5, 0⟩] = Except.ok ([0, -1, -1], s) ∧
      s.jobs.nodes.map (fun j => (j.jobID, j.runTime, j.firstRun, j.timeLeft)) =
        [(1, 10, 0, 3), (2, 5, -1, 5), (3, 5, -1, 5)] ∧
      (10 : Int) - (5 - 0) = 5 := by
  have h1 := scheduler_new_job_after_start_up scheme_t.FCFS 1 1 0 10 0
  have h2 := scheduler_new_job_keeps_front (after_first 1 scheme_t.FCFS 1 0 10 0)
    { new_job_of 1 0 10 0 with firstRun := 0 } [] 2 2 5 0 rfl (by decide) (by decide)
  have h3 := scheduler_new_job_keeps_front
    (after_second_behind 1 scheme_t.FCFS ⟨1, 0, 10, 0⟩ ⟨2, 2, 5, 0⟩)
    (charged { new_job_of 1 0 10 0 with firstRun := 0 } 2) [new_job_of 2 2 5 0] 3 5 5 0 rfl
    (by decide) (by decide)
  refine ⟨_, run_arrivals_cons_ok _ _ _ ⟨1, 0, 10, 0⟩ _ _ _ h1
    (run_arrivals_cons_ok _ _ _ ⟨2, 2, 5, 0⟩ _ _ _ h2
      (run_arrivals_cons_ok _ _ _ ⟨3, 5, 5, 0⟩ _ _ _ h3 rfl)), ?_, by decide⟩
  decide

/-- C17 (the code at the failing input): for a queued job of priority
`-2147483648` and a new job of priority 1, `PpriComp` returns 2147483647, a
positive value, although `-2147483648 < 1`: the `int` subtraction does not fit
32 bits.  In the scheduler (one core, PPRI) job 2 of priority 1 arriving at
time 1 then takes the core from job 1 of priority `-2147483648`. -/
theorem PpriComp_overflow :
    PpriComp (new_job_of 1 0 10 (-2147483648)) (new_job_of 2 1 10 1) = 2147483647 ∧
    (-2147483648 : Int) < 1 ∧
    Except.map Prod.fst
      (run_arrivals (scheduler_start_up 1 scheme_t.PPRI)
        [⟨1, 0, 10, -2147483648⟩, ⟨2, 1, 10, 1⟩]) = Except.ok [0, 0] := by
  refine ⟨by decide, by decide, ?_⟩
  have h1 := scheduler_new_job_after_start_up scheme_t.PPRI 1 1 0 10 (-2147483648)
  have h2 := scheduler_new_job_preempts (after_first 1 scheme_t.PPRI 1 0 10 (-2147483648))
    { new_job_of 1 0 10 (-2147483648) with firstRun := 0 } [] 2 1 10 1 rfl
    (by show (1 : Int) ≤ 1; decide) (by decide) (by decide) (by show (0 : Int) ≤ 1; decide)
    (after_first_cap _ _ _ _ _ _) (by show (1 : Int) + 1 ≠ MIN_SIZE_ARRS; decide)
  simp only [run_arrivals, h1, h2]
  rfl

/-! ## Theorems: the waiting jobs under SJF -/

theorem takeWhile_dropWhile_congr {α : Type} (p q : α → Bool) (l : List α)
    (h : ∀ c ∈ l, p c = q c) :
    l.takeWhile p = l.takeWhile q ∧ l.dropWhile p = l.dropWhile q := by
  induction l with
  | nil => exact ⟨rfl, rfl⟩
  | cons c t ih =>
    have hc := h c (List.mem_cons_self _ _)
    have ht := ih (fun x hx => h x (List.mem_cons_of_mem _ hx))
    simp only [List.takeWhile_cons, List.dropWhile_cons, hc, ht.1, ht.2]
    cases q c <;> simp

/-- Offering into a fresh queue under a total preorder gives the library's
stable merge sort. -/
theorem offer_all_eq_mergeSort {α : Type} (cmp : α → α → Int)
    (total : ∀ a b, cmp a b ≤ 0 ∨ cmp b a ≤ 0)
    (trans : ∀ a b c, cmp a b ≤ 0 → cmp b c ≤ 0 → cmp a c ≤ 0) (xs : List α) :
    (offer_all (priqueue_init cmp) xs).nodes =
      xs.mergeSort (fun a b => decide (cmp a b ≤ 0)) := by
  obtain ⟨hs, _, hf⟩ := offer_all_invariant cmp total trans xs
  have hrefl : ∀ a : α, cmp a a ≤ 0 := fun a => (total a a).elim id id
  have hms : (xs.mergeSort (fun a b => decide (cmp a b ≤ 0))).Pairwise
      (fun a b => cmp a b ≤ 0) := by
    have h := @List.sorted_mergeSort α (fun a b => decide (cmp a b ≤ 0))
      (fun a b c h1 h2 => by
        simp only [decide_eq_true_eq] at h1 h2 ⊢
        exact trans a b c h1 h2)
      (fun a b => by
        simp only [Bool.or_eq_true, decide_eq_true_eq]
        exact total a b) xs
    exact h.imp (fun h => by simpa using h)
  apply sorted_classes_unique cmp _ _ hs hms
  · intro a
    rw [hf a, mergeSort_filter_class cmp total trans xs a]
  · intro a _; exact hrefl a
  · intro a _; exact hrefl a

theorem burst_order_total (a b : job_t) : burst_order a b ≤ 0 ∨ burst_order b a ≤ 0 := by
  unfold burst_order; omega

theorem burst_order_trans (a b c : job_t) (h1 : burst_order a b ≤ 0)
    (h2 : burst_order b c ≤ 0) : burst_order a c ≤ 0 := by
  unfold burst_order at *; omega

/-- On jobs that have not run and whose bursts are positive `int` values,
`SJF_comp` is the comparison by burst. -/
theorem SJF_comp_waiting (c n : job_t) (hc : c.firstRun = -1)
    (hcr : 0 < c.runTime ∧ c.runTime ≤ 2147483647)
    (hnr : 0 < n.runTime ∧ n.runTime ≤ 2147483647) :
    SJF_comp c n = burst_order c n := by
  unfold SJF_comp burst_order
  rw [if_neg (by simp [hc])]
  exact wrap32_of_range _ (by omega) (by omega)

/-- Under SJF, once the front job has run, the jobs behind it are kept as the
queue that offering them one by one under the comparison by burst builds. -/
theorem run_arrivals_sjf (rest : List arrival_t) :
    ∀ (s : scheduler_t) (f : job_t) (done : List arrival_t),
      s.jobs.comparer = SJF_comp →
      s.jobs.nodes = f :: (offer_all (priqueue_init burst_order) (done.map job_of)).nodes →
      f.firstRun ≠ -1 →
      (∀ a ∈ done ++ rest, 0 < a.running_time ∧ a.running_time ≤ 2147483647) →
      ∃ tl s2,
        run_arrivals s rest = Except.ok (List.replicate rest.length (-1), s2) ∧
        s2.jobs.nodes = { f with timeLeft := tl } ::
          (offer_all (priqueue_init burst_order) ((done ++ rest).map job_of)).nodes := by
  induction rest with
  | nil =>
    intro s f done _ hn _ _
    exact ⟨f.timeLeft, s, rfl, by simpa using hn⟩
  | cons a rest ih =>
    intro s f done hc hn hf hb
    have hcmp : s.jobs.comparer (charged f a.time)
        (new_job_of a.job_number a.time a.running_time a.priority) ≤ 0 := by
      rw [hc]
      have hf2 : (charged f a.time).firstRun ≠ -1 := hf
      simp [SJF_comp, hf2]
    have hstep := scheduler_new_job_keeps_front s f _ a.job_number a.time a.running_time
      a.priority hn hf hcmp
    have ha : 0 < (job_of a).runTime ∧ (job_of a).runTime ≤ 2147483647 :=
      hb a (by simp)
    have hagree : ∀ c ∈ (offer_all (priqueue_init burst_order) (done.map job_of)).nodes,
        decide (s.jobs.comparer c (job_of a) ≤ 0) = decide (burst_order c (job_of a) ≤ 0) := by
      intro c hcm
      have hperm := (offer_all_invariant burst_order burst_order_total burst_order_trans
        (done.map job_of)).2.1
      have hc2 : c ∈ done.map job_of := hperm.mem_iff.1 hcm
      obtain ⟨d, hd, rfl⟩ := List.mem_map.1 hc2
      rw [hc, SJF_comp_waiting (job_of d) (job_of a) rfl (hb d (by simp [hd])) ha]
    obtain ⟨htw, hdw⟩ := takeWhile_dropWhile_congr _ _ _ hagree
    have hnodes : (offer_all (priqueue_init burst_order) ((done ++ [a]).map job_of)).nodes =
        (offer_all (priqueue_init burst_order) (done.map job_of)).nodes.takeWhile
            (fun c => decide (burst_order c (job_of a) ≤ 0)) ++
          job_of a ::
          (offer_all (priqueue_init burst_order) (done.map job_of)).nodes.dropWhile
            (fun c => decide (burst_order c (job_of a) ≤ 0)) := by
      rw [List.map_append, List.map_singleton, offer_all_append, priqueue_offer_nodes,
        offer_all_comparer]
      rfl
    obtain ⟨s1, hs1, hc1, hn1⟩ : ∃ s1,
        scheduler_new_job s a.job_number a.time a.running_time a.priority =
          Except.ok (-1, s1) ∧
        s1.jobs.comparer = SJF_comp ∧
        s1.jobs.nodes = charged f a.time ::
          (offer_all (priqueue_init burst_order) ((done ++ [a]).map job_of)).nodes := by
      refine ⟨_, hstep, hc, ?_⟩
      show charged f a.time :: _ = _
      rw [hnodes]
      show charged f a.time ::
        ((offer_all (priqueue_init burst_order) (done.map job_of)).nodes.takeWhile
            (fun c => decide (s.jobs.comparer c (job_of a) ≤ 0)) ++
          job_of a ::
          (offer_all (priqueue_init burst_order) (done.map job_of)).nodes.dropWhile
            (fun c => decide (s.jobs.comparer c (job_of a) ≤ 0))) = _
      rw [htw, hdw]
    obtain ⟨tl, s2, hrun, hn2⟩ := ih s1 (charged f a.time) (done ++ [a]) hc1 hn1 hf
      (by
        intro x hx
        exact hb x (by simpa using hx))
    refine ⟨tl, s2, ?_, ?_⟩
    · rw [run_arrivals_cons_ok s s1 s2 a rest (-1) _ hs1 hrun]
      rfl
    · rw [hn2]
      simp [charged]

/-- C18: under SJF with one core, after every sequence of job arrivals at
times >= 0 with bursts > 0 (as `int` values, so at most 2147483647) and no
completions, every call is answered (no fault), the front of the queue is the
first job that arrived, and the waiting jobs behind it are the later arrivals
ordered by non-decreasing total burst (`runTime`), jobs of equal burst in
arrival order; that is, they are the stable sort of the later arrivals by
burst. -/
theorem scheduler_sjf_waiting_order (first : arrival_t) (rest : List arrival_t)
    (ht : ∀ a ∈ first :: rest, 0 ≤ a.time)
    (hb : ∀ a ∈ first :: rest, 0 < a.running_time ∧ a.running_time ≤ 2147483647) :
    ∃ r0 tl waiting s,
      run_arrivals (scheduler_start_up 1 scheme_t.SJF) (first :: rest) =
        Except.ok (r0 :: List.replicate rest.length (-1), s) ∧
      s.jobs.nodes =
        { job_of first with firstRun := first.time, timeLeft := tl } :: waiting ∧
      waiting.Pairwise (fun a b => a.runTime ≤ b.runTime) ∧
      waiting.Perm (rest.map job_of) ∧
      (∀ b : Int, waiting.filter (fun j => decide (j.runTime = b)) =
        (rest.map job_of).filter (fun j => decide (j.runTime = b))) ∧
      waiting = (rest.map job_of).mergeSort (fun a b => decide (a.runTime ≤ b.runTime)) := by
  have h0 : (0 : Int) ≤ first.time := ht first (List.mem_cons_self _ _)
  have h1 := scheduler_new_job_after_start_up scheme_t.SJF 1 first.job_number first.time
    first.running_time first.priority
  obtain ⟨tl, s2, hrun, hnodes⟩ := run_arrivals_sjf rest
    (after_first 1 scheme_t.SJF first.job_number first.time first.running_time first.priority)
    { job_of first with firstRun := first.time } [] rfl rfl
    (by show first.time ≠ -1; omega)
    (by
      intro a ha
      exact hb a (List.mem_cons_of_mem _ (by simpa using ha)))
  obtain ⟨hs, hp, hf⟩ := offer_all_invariant burst_order burst_order_total burst_order_trans
    (rest.map job_of)
  refine ⟨_, tl, (offer_all (priqueue_init burst_order) (rest.map job_of)).nodes, s2,
    run_arrivals_cons_ok _ _ _ first rest _ _ h1 hrun, ?_, ?_, hp, ?_, ?_⟩
  · simpa using hnodes
  · exact hs.imp (fun h => by unfold burst_order at h; omega)
  · intro b
    have hcl : ∀ l : List job_t,
        l.filter (fun j => decide (j.runTime = b)) =
        l.filter (fun x => decide (burst_order x (new_job_of 0 0 b 0) ≤ 0 ∧
          burst_order (new_job_of 0 0 b 0) x ≤ 0)) := by
      intro l
      apply List.filter_congr
      intro x _
      have : (new_job_of 0 0 b 0).runTime = b := rfl
      unfold burst_order
      rw [this, decide_eq_decide]
      omega
    rw [hcl, hcl, hf]
  · have hle : (fun a b : job_t => decide (burst_order a b ≤ 0)) =
        (fun a b : job_t => decide (a.runTime ≤ b.runTime)) := by
      funext a b
      unfold burst_order
      rw [decide_eq_decide]
      omega
    rw [offer_all_eq_mergeSort burst_order burst_order_total burst_order_trans, hle]

/-- C18 witness: job 1 (burst 10) arrives at time 0, then jobs 2, 3, 4 with
bursts 5, 3, 5 at times 1, 2, 3; the waiting jobs end up in the order 3, 2, 4. -/
theorem scheduler_sjf_waiting_order_witness :
    ∃ r0 tl waiting s,
      run_arrivals (scheduler_start_up 1 scheme_t.SJF)
        [⟨1, 0, 10, 0⟩, ⟨2, 1, 5, 0⟩, ⟨3, 2, 3, 0⟩, ⟨4, 3, 5, 0⟩] =
        Except.ok ([r0, -1, -1, -1], s) ∧
      s.jobs.nodes = { job_of ⟨1, 0, 10, 0⟩ with firstRun := 0, timeLeft := tl } :: waiting ∧
      waiting.map (fun j => j.jobID) = [3, 2, 4] :=
  match scheduler_sjf_waiting_order ⟨1, 0, 10, 0⟩ [⟨2, 1, 5, 0⟩, ⟨3, 2, 3, 0⟩, ⟨4, 3, 5, 0⟩]
      (by decide) (by decide) with
  | ⟨r0, tl, waiting, s, h1, h2, _, _, _, h6⟩ =>
    ⟨r0, tl, waiting, s, h1, h2, by
      rw [h6]
      simp [List.mergeSort, List.splitInTwo, List.merge, job_of, new_job_of]⟩

/-! ## Theorems: first-run timestamps and the response buffer -/

theorem realloc_ints_length (block : List (Option Int)) (n : Int) :
    (realloc_ints block n).length = n.toNat := by
  simp only [realloc_ints, List.length_append, List.length_take, List.length_replicate]
  omega

theorem started_jobs (s : scheduler_t) : (started s).jobs = s.jobs := by
  unfold started
  dsimp only
  split <;> rfl

theorem started_jobsRun (s : scheduler_t) : (started s).jobsRun = s.jobsRun + 1 := by
  unfold started
  dsimp only
  split <;> rfl

/-- An arrival that the comparer places in front of the front job, in full:
the call faults exactly when the response of the new job would be written
outside the response buffer. -/
theorem scheduler_new_job_preempts_full (s : scheduler_t) (f : job_t) (t : List job_t)
    (job_number time running_time priority : Int)
    (hn : s.jobs.nodes = f :: t) (hsz : 1 ≤ s.jobs.size)
    (hcmp : 0 < s.jobs.comparer (charged f time)
      (new_job_of job_number time running_time priority))
    (hft : f.firstRun ≠ time) :
    scheduler_new_job s job_number time running_time priority =
      if 0 ≤ s.jobsRun ∧ s.jobsRun < ((started s).reponses.length : Int) then
        Except.ok (if job_number ≠ f.jobID then 0 else -1,
          { started s with
            jobs :=
              { s.jobs with
                nodes := { new_job_of job_number time running_time priority with
                           firstRun := time } :: charged f time :: t
                size := s.jobs.size + 1 }
            reponses := (started s).reponses.set s.jobsRun.toNat (some 0) })
      else Except.error Fault.out_of_bounds := by
  have hcmp2 : ¬ s.jobs.comparer
      { runTime := f.runTime, firstRun := f.firstRun, priority := f.priority,
        timeLeft := wrap32 (f.timeLeft - wrap32 (time - f.firstRun)), jobID := f.jobID,
        arrival := f.arrival }
      { runTime := running_time, firstRun := -1, priority := priority,
        timeLeft := running_time, jobID := job_number, arrival := time } ≤ 0 :=
    not_le.2 hcmp
  have hsz2 : ¬ (1 ≥ s.jobs.size + 1) := by omega
  by_cases hj : job_number = f.jobID
  · subst hj
    have harr2 : s.jobsRun + 1 = s.arrSize ↔ s.arrSize = s.jobsRun + 1 := eq_comm
    by_cases harr : s.arrSize = s.jobsRun + 1 <;>
    by_cases hb : 0 ≤ s.jobsRun ∧ s.jobsRun < ((started s).reponses.length : Int)
    all_goals
      have hb2 := hb
      simp only [started, harr2, harr, if_true, if_false] at hb2
      simp [scheduler_new_job, priqueue_peek, priqueue_offer, offer_walk_eq, checkResponses,
        priqueue_at, at_walk, write_job, new_job_of, charged, started, hn, hcmp2, hft, harr2,
        harr, hsz2, hb, hb2, wrap32_zero, List.takeWhile_cons, List.dropWhile_cons]
  ·
    have harr2 : s.jobsRun + 1 = s.arrSize ↔ s.arrSize = s.jobsRun + 1 := eq_comm
    by_cases harr : s.arrSize = s.jobsRun + 1 <;>
    by_cases hb : 0 ≤ s.jobsRun ∧ s.jobsRun < ((started s).reponses.length : Int)
    all_goals
      have hb2 := hb
      simp only [started, harr2, harr, if_true, if_false] at hb2
      simp [scheduler_new_job, priqueue_peek, priqueue_offer, offer_walk_eq, checkResponses,
        priqueue_at, at_walk, write_job, new_job_of, charged, started, hn, hcmp2, hft, harr2,
        harr, hsz2, hb, hb2, wrap32_zero, List.takeWhile_cons, List.dropWhile_cons, hj]

/-- An arrival at an idle scheduler, in full: the call faults exactly when
the response of the new job would be written outside the response buffer. -/
theorem scheduler_new_job_empty_full (s : scheduler_t)
    (job_number time running_time priority : Int)
    (hn : s.jobs.nodes = []) (hsz : s.jobs.size = 0) :
    scheduler_new_job s job_number time running_time priority =
      if 0 ≤ s.jobsRun ∧ s.jobsRun < ((started s).reponses.length : Int) then
        Except.ok (if job_number ≠ -1 then 0 else -1,
          { started s with
            jobs :=
              { s.jobs with
                nodes := [{ new_job_of job_number time running_time priority with
                            firstRun := time }]
                size := 1 }
            reponses := (started s).reponses.set s.jobsRun.toNat (some 0) })
      else Except.error Fault.out_of_bounds := by
  have harr2 : s.jobsRun + 1 = s.arrSize ↔ s.arrSize = s.jobsRun + 1 := eq_comm
  by_cases hj : job_number = -1 <;>
  by_cases harr : s.arrSize = s.jobsRun + 1 <;>
  by_cases hb : 0 ≤ s.jobsRun ∧ s.jobsRun < ((started s).reponses.length : Int)
  all_goals
    have hb2 := hb
    simp only [started, harr2, harr, if_true, if_false] at hb2
    simp [scheduler_new_job, priqueue_peek, priqueue_offer, offer_walk, checkResponses,
      priqueue_at, write_job, new_job_of, started, hn, hsz, harr2, harr, hb, hb2,
      wrap32_zero, hj]

theorem kept_refl (l : List job_t) : kept l l :=
  fun j hj => ⟨j, hj, rfl, rfl, rfl, rfl, fun _ => rfl⟩

theorem kept_trans (l₁ l₂ l₃ : List job_t) (h1 : kept l₁ l₂) (h2 : kept l₂ l₃) :
    kept l₁ l₃ := by
  intro j hj
  obtain ⟨j2, hj2, a1, a2, a3, a4, a5⟩ := h1 j hj
  obtain ⟨j3, hj3, b1, b2, b3, b4, b5⟩ := h2 j2 hj2
  refine ⟨j3, hj3, b1.trans a1, b2.trans a2, b3.trans a3, b4.trans a4, ?_⟩
  intro hne
  have h := a5 hne
  rw [b5 (by rw [h]; exact hne), h]

theorem kept_charge_front (l : List job_t) (time : Int) : kept l (charge_front l time) := by
  cases l with
  | nil => exact kept_refl []
  | cons f t =>
    intro j hj
    rcases List.mem_cons.1 hj with h | h
    · subst h
      exact ⟨charged j time, List.mem_cons_self _ _, rfl, rfl, rfl, rfl, fun _ => rfl⟩
    · exact ⟨j, List.mem_cons_of_mem _ h, rfl, rfl, rfl, rfl, fun _ => rfl⟩

theorem kept_insert (pre post : List job_t) (nj : job_t) : kept (pre ++ post) (pre ++ nj :: post) := by
  intro j hj
  refine ⟨j, ?_, rfl, rfl, rfl, rfl, fun _ => rfl⟩
  rcases List.mem_append.1 hj with h | h
  · exact List.mem_append_left _ h
  · exact List.mem_append_right _ (List.mem_cons_of_mem _ h)

theorem started_stats (s : scheduler_t) (hlen : s.reponses.length = 1000)
    (hsz : (s.jobsRun < 1000 ∧ s.arrSize = 1000) ∨ (s.jobsRun = 1000 ∧ s.arrSize = 2000)) :
    (started s).reponses.length = 1000 ∧
    (s.jobsRun < 1000 →
      ((started s).jobsRun < 1000 ∧ (started s).arrSize = 1000) ∨
      ((started s).jobsRun = 1000 ∧ (started s).arrSize = 2000)) := by
  unfold started
  dsimp only
  by_cases h : s.jobsRun + 1 = s.arrSize
  · rw [if_pos h]
    dsimp only
    rcases hsz with ⟨h1, h2⟩ | ⟨h1, h2⟩
    · refine ⟨?_, fun _ => Or.inr ⟨by omega, ?_⟩⟩
      · rw [realloc_ints_length, h2]; rfl
      · rw [h2]; rfl
    · omega
  · rw [if_neg h]
    dsimp only
    refine ⟨hlen, fun hlt => ?_⟩
    rcases hsz with ⟨h1, h2⟩ | ⟨h1, h2⟩
    · exact Or.inl ⟨by omega, h2⟩
    · omega

theorem charge_front_facts (nodes : List job_t) (time : Int) :
    (charge_front nodes time).length = nodes.length ∧
    (charge_front nodes time).map (fun j => j.arrival) = nodes.map (fun j => j.arrival) ∧
    (∀ P : Int → Int → Prop, (∀ j ∈ nodes, P j.firstRun j.arrival) →
      ∀ j ∈ charge_front nodes time, P j.firstRun j.arrival) ∧
    ((∀ f t, nodes = f :: t → f.firstRun ≠ -1) →
      ∀ f t, charge_front nodes time = f :: t → f.firstRun ≠ -1) := by
  cases nodes with
  | nil => simp [charge_front]
  | cons f t =>
    refine ⟨rfl, rfl, ?_, ?_⟩
    · intro P hP j hj
      rcases List.mem_cons.1 hj with h | h
      · rw [h]; exact hP f (List.mem_cons_self _ _)
      · exact hP j (List.mem_cons_of_mem _ h)
    · intro hf f2 t2 heq
      have h1 : charged f time = f2 := (List.cons.inj heq).1
      rw [← h1]
      exact hf f t rfl

/-- One arrival keeps the invariant `reach` and every queued job, given the
shape of the queue afterwards: the new job linked into the chain whose front
has been charged. -/
theorem reach_step (s s2 : scheduler_t) (n : Nat) (T time : Int) (h : reach s n T)
    (hT : T < time) (h0 : 0 ≤ time) (pre post : List job_t) (nj : job_t)
    (hpp : pre ++ post = charge_front s.jobs.nodes time)
    (hnodes : s2.jobs.nodes = pre ++ nj :: post)
    (hsize : s2.jobs.size = s.jobs.size + 1)
    (hna : nj.arrival = time) (hnf : nj.firstRun = -1 ∨ nj.firstRun = time)
    (hfront : pre = [] → nj.firstRun = time)
    (hstats : 0 ≤ s2.jobsRun ∧ s2.jobsRun ≤ (n : Int) + 1 ∧ s2.reponses.length = 1000 ∧
      ((s2.jobsRun < 1000 ∧ s2.arrSize = 1000) ∨ (s2.jobsRun = 1000 ∧ s2.arrSize = 2000))) :
    reach s2 (n + 1) time ∧ kept s.jobs.nodes s2.jobs.nodes := by
  obtain ⟨hsz, hlen, hfr, hall, hnd, _, _, _, _⟩ := h
  obtain ⟨clen, cmap, call, cfr⟩ := charge_front_facts s.jobs.nodes time
  have hall2 : ∀ j ∈ charge_front s.jobs.nodes time,
      (j.firstRun = -1 ∨ (0 ≤ j.firstRun ∧ j.firstRun ≤ T)) ∧ j.arrival ≤ T :=
    call (fun fr ar => (fr = -1 ∨ (0 ≤ fr ∧ fr ≤ T)) ∧ ar ≤ T) hall
  have hmem : ∀ j, j ∈ pre ∨ j ∈ post → j ∈ charge_front s.jobs.nodes time := by
    intro j hj
    rw [← hpp]
    exact List.mem_append.2 hj
  refine ⟨⟨?_, ?_, ?_, ?_, ?_, hstats.1, ?_, hstats.2.2.1, hstats.2.2.2⟩, ?_⟩
  · rw [hsize, hsz]; push_cast; rfl
  · rw [hnodes, List.length_append, List.length_cons, ← hlen, ← clen, ← hpp,
      List.length_append]
    omega
  · intro f t heq
    rw [hnodes] at heq
    cases hpre : pre with
    | nil =>
      rw [hpre] at heq
      have h1 : nj = f := (List.cons.inj heq).1
      rw [← h1, hfront hpre]
      omega
    | cons p pre2 =>
      rw [hpre] at heq
      have h1 : p = f := (List.cons.inj heq).1
      rw [← h1]
      apply cfr hfr p (pre2 ++ post)
      rw [← hpp, hpre]
      rfl
  · intro j hj
    rw [hnodes] at hj
    rcases List.mem_append.1 hj with hj1 | hj1
    · obtain ⟨a, b⟩ := hall2 j (hmem j (Or.inl hj1))
      exact ⟨by omega, by omega⟩
    · rcases List.mem_cons.1 hj1 with hj2 | hj2
      · rw [hj2]
        exact ⟨by omega, by omega⟩
      · obtain ⟨a, b⟩ := hall2 j (hmem j (Or.inr hj2))
        exact ⟨by omega, by omega⟩
  · have hperm : (pre ++ nj :: post).Perm (nj :: (pre ++ post)) := List.perm_middle
    rw [hnodes]
    refine (hperm.map _).nodup_iff.2 ?_
    rw [List.map_cons, List.nodup_cons, hpp, cmap]
    refine ⟨?_, hnd⟩
    intro hin
    obtain ⟨j, hj, hja⟩ := List.mem_map.1 hin
    have := (hall j hj).2
    rw [hna] at hja
    omega
  · push_cast
    exact hstats.2.1
  · have k1 := kept_charge_front s.jobs.nodes time
    have k2 := kept_insert pre post nj
    rw [hpp] at k2
    rw [hnodes]
    exact kept_trans _ _ _ k1 k2

theorem started_reach_stats (s : scheduler_t) (n : Nat) (hrun0 : 0 ≤ s.jobsRun)
    (hrunn : s.jobsRun ≤ (n : Int)) (hlen : s.reponses.length = 1000)
    (hd : (s.jobsRun < 1000 ∧ s.arrSize = 1000) ∨ (s.jobsRun = 1000 ∧ s.arrSize = 2000))
    (hb : s.jobsRun < ((started s).reponses.length : Int))
    (jobs : priqueue_t job_t) (i : Nat) (v : Option Int) :
    0 ≤ ({ started s with jobs := jobs, reponses := (started s).reponses.set i v } :
      scheduler_t).jobsRun ∧
    ({ started s with jobs := jobs, reponses := (started s).reponses.set i v } :
      scheduler_t).jobsRun ≤ (n : Int) + 1 ∧
    ({ started s with jobs := jobs, reponses := (started s).reponses.set i v } :
      scheduler_t).reponses.length = 1000 ∧
    ((({ started s with jobs := jobs, reponses := (started s).reponses.set i v } :
        scheduler_t).jobsRun < 1000 ∧
      ({ started s with jobs := jobs, reponses := (started s).reponses.set i v } :
        scheduler_t).arrSize = 1000) ∨
     (({ started s with jobs := jobs, reponses := (started s).reponses.set i v } :
        scheduler_t).jobsRun = 1000 ∧
      ({ started s with jobs := jobs, reponses := (started s).reponses.set i v } :
        scheduler_t).arrSize = 2000)) := by
  obtain ⟨h1, h2⟩ := started_stats s hlen hd
  rw [h1] at hb
  have hlt : s.jobsRun < 1000 := by exact_mod_cast hb
  have hr := started_jobsRun s
  refine ⟨?_, ?_, ?_, ?_⟩
  · show 0 ≤ (started s).jobsRun
    omega
  · show (started s).jobsRun ≤ (n : Int) + 1
    omega
  · show ((started s).reponses.set i v).length = 1000
    rw [List.length_set, h1]
  · exact h2 hlt

/-- One arrival at a later time, from a state satisfying `reach`: if the call
returns, the state afterwards satisfies `reach` again and every queued job is
kept with its first-run timestamp; and the call does return as long as fewer
than 1000 jobs have arrived. -/
theorem scheduler_new_job_reach (s : scheduler_t) (n : Nat) (T : Int) (h : reach s n T)
    (job_number time running_time priority : Int) (hT : T < time) (h0 : 0 ≤ time) :
    (∀ ret s2, scheduler_new_job s job_number time running_time priority =
        Except.ok (ret, s2) →
      reach s2 (n + 1) time ∧ kept s.jobs.nodes s2.jobs.nodes) ∧
    (n < 1000 → ∃ ret s2, scheduler_new_job s job_number time running_time priority =
      Except.ok (ret, s2)) := by
  have h' := h
  obtain ⟨hsz, hlen, hfr, hall, _, hrun0, hrunn, hrlen, hd⟩ := h'
  have hslen := (started_stats s hrlen hd).1
  obtain hn | ⟨f, t, hn⟩ : s.jobs.nodes = [] ∨ ∃ f t, s.jobs.nodes = f :: t := by
    cases s.jobs.nodes with
    | nil => exact Or.inl rfl
    | cons f t => exact Or.inr ⟨f, t, rfl⟩
  ·
    have hn0 : n = 0 := by rw [← hlen, hn]; rfl
    have hsz0 : s.jobs.size = 0 := by rw [hsz, hn0]; rfl
    rw [scheduler_new_job_empty_full s job_number time running_time priority hn hsz0]
    by_cases hb : 0 ≤ s.jobsRun ∧ s.jobsRun < ((started s).reponses.length : Int)
    · rw [if_pos hb]
      refine ⟨?_, fun _ => ⟨_, _, rfl⟩⟩
      intro ret s2 heq
      have hs2 := (Prod.mk.inj (Except.ok.inj heq)).2
      rw [← hs2]
      apply reach_step s _ n T time h hT h0 [] []
        { new_job_of job_number time running_time priority with firstRun := time }
      · rw [hn]; rfl
      · rfl
      · show (1 : Int) = s.jobs.size + 1
        rw [hsz0]; rfl
      · rfl
      · exact Or.inr rfl
      · exact fun _ => rfl
      · exact started_reach_stats s n hrun0 hrunn hrlen hd hb.2 _ _ _
    · rw [if_neg hb]
      refine ⟨fun ret s2 heq => (by cases heq), ?_⟩
      intro hlt
      exfalso
      apply hb
      rw [hslen]
      exact ⟨hrun0, by omega⟩
  ·
    have hf : f.firstRun ≠ -1 := hfr f t hn
    have hfT := (hall f (by rw [hn]; exact List.mem_cons_self _ _)).1
    have hn1 : 1 ≤ n := by rw [← hlen, hn]; simp
    by_cases hcmp : s.jobs.comparer (charged f time)
        (new_job_of job_number time running_time priority) ≤ 0
    · rw [scheduler_new_job_keeps_front s f t job_number time running_time priority hn hf hcmp]
      refine ⟨?_, fun _ => ⟨_, _, rfl⟩⟩
      intro ret s2 heq
      have hs2 := (Prod.mk.inj (Except.ok.inj heq)).2
      rw [← hs2]
      apply reach_step s _ n T time h hT h0
        (charged f time :: t.takeWhile (fun c => decide (s.jobs.comparer c
          (new_job_of job_number time running_time priority) ≤ 0)))
        (t.dropWhile (fun c => decide (s.jobs.comparer c
          (new_job_of job_number time running_time priority) ≤ 0)))
        (new_job_of job_number time running_time priority)
      · rw [hn]
        show charged f time :: (_ ++ _) = charged f time :: t
        rw [List.takeWhile_append_dropWhile]
      · rfl
      · rfl
      · rfl
      · exact Or.inl rfl
      · exact fun hp => (by cases hp)
      · exact ⟨hrun0, (by show s.jobsRun ≤ (n : Int) + 1; omega), hrlen, hd⟩
    · have hsz1 : 1 ≤ s.jobs.size := by rw [hsz]; exact_mod_cast hn1
      rw [scheduler_new_job_preempts_full s f t job_number time running_time priority hn hsz1
        (not_le.1 hcmp) (by omega)]
      by_cases hb : 0 ≤ s.jobsRun ∧ s.jobsRun < ((started s).reponses.length : Int)
      · rw [if_pos hb]
        refine ⟨?_, fun _ => ⟨_, _, rfl⟩⟩
        intro ret s2 heq
        have hs2 := (Prod.mk.inj (Except.ok.inj heq)).2
        rw [← hs2]
        apply reach_step s _ n T time h hT h0 [] (charged f time :: t)
          { new_job_of job_number time running_time priority with firstRun := time }
        · rw [hn]; rfl
        · rfl
        · rfl
        · rfl
        · exact Or.inr rfl
        · exact fun _ => rfl
        · exact started_reach_stats s n hrun0 hrunn hrlen hd hb.2 _ _ _
      · rw [if_neg hb]
        refine ⟨fun ret s2 heq => (by cases heq), ?_⟩
        intro hlt
        exfalso
        apply hb
        rw [hslen]
        exact ⟨hrun0, by omega⟩

theorem reach_mono (s : scheduler_t) (n : Nat) (T U : Int) (h : reach s n T) (hTU : T ≤ U) :
    reach s n U := by
  obtain ⟨h1, h2, h3, h4, h5, h6⟩ := h
  refine ⟨h1, h2, h3, ?_, h5, h6⟩
  intro j hj
  obtain ⟨a, b⟩ := h4 j hj
  exact ⟨by omega, by omega⟩

theorem reach_start_up (cores : Int) (scheme : scheme_t) :
    reach (scheduler_start_up cores scheme) 0 (-1) := by
  refine ⟨rfl, rfl, ?_, ?_, ?_, ?_, ?_, ?_, ?_⟩
  · intro f t h; cases h
  · intro j hj; cases hj
  · exact List.nodup_nil
  · show (0 : Int) ≤ 0; decide
  · show (0 : Int) ≤ 0; decide
  · show (malloc_ints MIN_SIZE_ARRS).length = 1000
    rw [malloc_ints_length]; rfl
  · exact Or.inl ⟨by show (0 : Int) < 1000; decide, rfl⟩

/-- A run of arrivals at increasing times from a state satisfying `reach`: if
the run returns, the final state satisfies `reach` and every job queued at the
start is kept with its first-run timestamp; and the run does return as long as
at most 1000 jobs have arrived in total. -/
theorem run_arrivals_reach (bs : List arrival_t) :
    ∀ (s : scheduler_t) (n : Nat) (T U : Int), reach s n T →
      (T :: bs.map (fun a => a.time)).Pairwise (fun x y => x < y) →
      (∀ a ∈ bs, 0 ≤ a.time) → T ≤ U → (∀ a ∈ bs, a.time ≤ U) →
      (∀ rs s2, run_arrivals s bs = Except.ok (rs, s2) →
        reach s2 (n + bs.length) U ∧ kept s.jobs.nodes s2.jobs.nodes) ∧
      (n + bs.length ≤ 1000 → ∃ rs s2, run_arrivals s bs = Except.ok (rs, s2)) := by
  induction bs with
  | nil =>
    intro s n T U h _ _ hTU _
    refine ⟨?_, fun _ => ⟨[], s, rfl⟩⟩
    intro rs s2 heq
    have hs2 : s = s2 := (Prod.mk.inj (Except.ok.inj heq)).2
    rw [← hs2]
    exact ⟨reach_mono s n T U h hTU, kept_refl _⟩
  | cons a rest ih =>
    intro s n T U h hinc hpos hTU hU
    rw [List.map_cons, List.pairwise_cons] at hinc
    obtain ⟨hTall, hinc2⟩ := hinc
    have hTa : T < a.time := hTall a.time (List.mem_cons_self _ _)
    have ha0 : 0 ≤ a.time := hpos a (List.mem_cons_self _ _)
    obtain ⟨hstep1, hstep2⟩ := scheduler_new_job_reach s n T h a.job_number a.time
      a.running_time a.priority hTa ha0
    have hlen : n + (a :: rest).length = (n + 1) + rest.length := by
      simp only [List.length_cons]; omega
    constructor
    · intro rs s2 heq
      cases hnj : scheduler_new_job s a.job_number a.time a.running_time a.priority with
      | error f => simp [run_arrivals, hnj] at heq
      | ok v =>
        obtain ⟨r, s1⟩ := v
        obtain ⟨hr1, hk1⟩ := hstep1 r s1 hnj
        cases hrest : run_arrivals s1 rest with
        | error f => simp [run_arrivals, hnj, hrest] at heq
        | ok w =>
          obtain ⟨rs1, s3⟩ := w
          have heq2 : s3 = s2 := by
            simp only [run_arrivals, hnj, hrest] at heq
            exact (Prod.mk.inj (Except.ok.inj heq)).2
          obtain ⟨hr2, hk2⟩ := (ih s1 (n + 1) a.time U hr1 hinc2
            (fun x hx => hpos x (List.mem_cons_of_mem _ hx))
            (hU a (List.mem_cons_self _ _))
            (fun x hx => hU x (List.mem_cons_of_mem _ hx))).1 rs1 s3 hrest
          rw [← heq2, hlen]
          exact ⟨hr2, kept_trans _ _ _ hk1 hk2⟩
    · intro hle
      have hn : n < 1000 := by
        simp only [List.length_cons] at hle; omega
      obtain ⟨r, s1, hnj⟩ := hstep2 hn
      obtain ⟨hr1, _⟩ := hstep1 r s1 hnj
      obtain ⟨rs1, s3, hrest⟩ := (ih s1 (n + 1) a.time U hr1 hinc2
        (fun x hx => hpos x (List.mem_cons_of_mem _ hx))
        (hU a (List.mem_cons_self _ _))
        (fun x hx => hU x (List.mem_cons_of_mem _ hx))).2 (by omega)
      exact ⟨r :: rs1, s3, run_arrivals_cons_ok s s1 s3 a rest r rs1 hnj hrest⟩

theorem exists_time_bound (l : List arrival_t) (L : Int) :
    ∃ U, L ≤ U ∧ ∀ a ∈ l, a.time ≤ U := by
  induction l with
  | nil => exact ⟨L, le_refl L, fun a ha => by cases ha⟩
  | cons b t ih =>
    obtain ⟨U, hL, hU⟩ := ih
    refine ⟨max U b.time, le_trans hL (le_max_left _ _), ?_⟩
    intro a ha
    rcases List.mem_cons.1 ha with h | h
    · rw [h]; exact le_max_right _ _
    · exact le_trans (hU a h) (le_max_left _ _)

/-- Between two consecutive parts of a run at increasing times >= 0 there is
a time bound: at least every time of the first part and `-1`, below every time
of the second part. -/
theorem exists_split_bound (as bs : List arrival_t)
    (hpos : ∀ a ∈ as ++ bs, 0 ≤ a.time)
    (hinc : ((as ++ bs).map (fun a => a.time)).Pairwise (fun x y => x < y)) :
    ∃ U, -1 ≤ U ∧ (∀ a ∈ as, a.time ≤ U) ∧
      (U :: bs.map (fun a => a.time)).Pairwise (fun x y => x < y) := by
  rw [List.map_append, List.pairwise_append] at hinc
  obtain ⟨_, hb, hab⟩ := hinc
  cases bs with
  | nil =>
    obtain ⟨U, hL, hU⟩ := exists_time_bound as (-1)
    exact ⟨U, hL, hU, by simp⟩
  | cons b rest =>
    have hb0 : 0 ≤ b.time := hpos b (by simp)
    refine ⟨b.time - 1, by omega, ?_, ?_⟩
    · intro a ha
      have := hab a.time (List.mem_map.2 ⟨a, ha, rfl⟩) b.time (by simp)
      omega
    · rw [List.pairwise_cons]
      refine ⟨?_, hb⟩
      intro y hy
      rw [List.map_cons, List.pairwise_cons] at hb
      rcases List.mem_cons.1 hy with h | h
      · rw [h]; simp
      · have := hb.1 y h
        omega

/-- Within the capacity of the response buffer the first-run timestamps are
stable.  For every scheme and every sequence of job arrivals at strictly
increasing times >= 0 with no completion, split at any point into the calls
made so far and the later calls: whenever the calls return (no response written
outside the buffer), every job whose first-run timestamp is set (not `-1`)
after the calls made so far is still queued after the later calls, with the
same job number, arrival time, burst and priority and the same first-run
timestamp, and arrival times identify the queued jobs (they are pairwise
different).  The calls do return when at most 1000 jobs arrive in total. -/
theorem first_run_kept_in_bounds (cores : Int) (scheme : scheme_t)
    (as bs : List arrival_t)
    (hpos : ∀ a ∈ as ++ bs, 0 ≤ a.time)
    (hinc : ((as ++ bs).map (fun a => a.time)).Pairwise (fun x y => x < y)) :
    (∀ r1 s1 r2 s2,
      run_arrivals (scheduler_start_up cores scheme) as = Except.ok (r1, s1) →
      run_arrivals s1 bs = Except.ok (r2, s2) →
      (∀ j ∈ s1.jobs.nodes, j.firstRun ≠ -1 →
        ∃ j2 ∈ s2.jobs.nodes,
          j2.jobID = j.jobID ∧ j2.arrival = j.arrival ∧ j2.runTime = j.runTime ∧
          j2.priority = j.priority ∧ j2.firstRun = j.firstRun) ∧
      (s2.jobs.nodes.map (fun j => j.arrival)).Nodup) ∧
    ((as ++ bs).length ≤ 1000 →
      ∃ r1 s1 r2 s2,
        run_arrivals (scheduler_start_up cores scheme) as = Except.ok (r1, s1) ∧
        run_arrivals s1 bs = Except.ok (r2, s2)) := by
  obtain ⟨U, hU1, hUa, hUb⟩ := exists_split_bound as bs hpos hinc
  obtain ⟨U2, hU2, hUb2⟩ := exists_time_bound bs U
  have hposa : ∀ a ∈ as, 0 ≤ a.time := fun a ha => hpos a (List.mem_append_left _ ha)
  have hposb : ∀ a ∈ bs, 0 ≤ a.time := fun a ha => hpos a (List.mem_append_right _ ha)
  have hinca : ((-1 : Int) :: as.map (fun a => a.time)).Pairwise (fun x y => x < y) := by
    rw [List.map_append, List.pairwise_append] at hinc
    rw [List.pairwise_cons]
    refine ⟨?_, hinc.1⟩
    intro y hy
    obtain ⟨a, ha, rfl⟩ := List.mem_map.1 hy
    have := hposa a ha
    omega
  obtain ⟨ha1, ha2⟩ := run_arrivals_reach as (scheduler_start_up cores scheme) 0 (-1) U
    (reach_start_up cores scheme) hinca hposa hU1 hUa
  constructor
  · intro r1 s1 r2 s2 h1 h2
    obtain ⟨hr1, _⟩ := ha1 r1 s1 h1
    obtain ⟨hr2, hk⟩ := (run_arrivals_reach bs s1 (0 + as.length) U U2 hr1 hUb hposb hU2
      hUb2).1 r2 s2 h2
    refine ⟨?_, hr2.2.2.2.2.1⟩
    intro j hj hne
    obtain ⟨j2, hj2, c1, c2, c3, c4, c5⟩ := hk j hj
    exact ⟨j2, hj2, c1, c2, c3, c4, c5 hne⟩
  · intro hle
    rw [List.length_append] at hle
    obtain ⟨r1, s1, h1⟩ := ha2 (by omega)
    obtain ⟨hr1, _⟩ := ha1 r1 s1 h1
    obtain ⟨r2, s2, h2⟩ := (run_arrivals_reach bs s1 (0 + as.length) U U2 hr1 hUb hposb hU2
      hUb2).2 (by omega)
    exact ⟨r1, s1, r2, s2, h1, h2⟩

/-- Under PPRI the next job of `rising_priority_arrivals` takes the core: the
call returns 0 while fewer than 1000 jobs have run, and writes the response
outside the buffer once 1000 jobs have run. -/
theorem ppri_state_step (s : scheduler_t) (k : Nat) (hk : 1 ≤ k) (h : ppri_state s k) :
    (k < 1000 →
      ∃ s2, scheduler_new_job s (k : Int) (k : Int) 2000 (1000 - (k : Int)) =
          Except.ok (0, s2) ∧ ppri_state s2 (k + 1)) ∧
    (k = 1000 →
      scheduler_new_job s (k : Int) (k : Int) 2000 (1000 - (k : Int)) =
        Except.error Fault.out_of_bounds) := by
  obtain ⟨hc, hsz, ⟨f, t, hn, hfp, hff, hfj⟩, hrun, hlen, hd⟩ := h
  have hcmp : 0 < s.jobs.comparer (charged f (k : Int))
      (new_job_of (k : Int) (k : Int) 2000 (1000 - (k : Int))) := by
    rw [hc]
    show 0 < wrap32 (f.priority - (1000 - (k : Int)))
    rw [hfp]
    have : (1000 : Int) - ((k : Int) - 1) - (1000 - (k : Int)) = 1 := by omega
    rw [this]
    decide
  have hfull := scheduler_new_job_preempts_full s f t (k : Int) (k : Int) 2000
    (1000 - (k : Int)) hn (by rw [hsz]; exact_mod_cast hk) hcmp (by rw [hff]; omega)
  obtain ⟨hs1, hs2⟩ := started_stats s hlen hd
  have hjid : (k : Int) ≠ f.jobID := by rw [hfj]; omega
  rw [hs1, hrun, if_pos hjid] at hfull
  constructor
  · intro hlt
    have hb : 0 ≤ (k : Int) ∧ (k : Int) < ((1000 : Nat) : Int) := ⟨by omega, by omega⟩
    rw [if_pos hb] at hfull
    refine ⟨_, hfull, hc, ?_, ⟨_, _, rfl, ?_, ?_, ?_⟩, ?_, ?_, ?_⟩
    · show s.jobs.size + 1 = ((k + 1 : Nat) : Int)
      rw [hsz]; push_cast; rfl
    · show (1000 : Int) - (k : Int) = 1000 - (((k + 1 : Nat) : Int) - 1)
      push_cast; omega
    · show (k : Int) = ((k + 1 : Nat) : Int) - 1
      push_cast; omega
    · show (k : Int) = ((k + 1 : Nat) : Int) - 1
      push_cast; omega
    · show (started s).jobsRun = ((k + 1 : Nat) : Int)
      rw [started_jobsRun, hrun]; push_cast; rfl
    · show ((started s).reponses.set (k : Int).toNat (some 0)).length = 1000
      rw [List.length_set, hs1]
    · exact hs2 (by rw [hrun]; omega)
  · intro heq
    have hb : ¬ (0 ≤ (k : Int) ∧ (k : Int) < ((1000 : Nat) : Int)) := by
      intro hb
      have := hb.2
      omega
    rw [if_neg hb] at hfull
    exact hfull

/-- Runs of `rising_priority_arrivals` under PPRI: every call returns 0 up to
the 1000th job, and the call for the 1001st job writes outside the response
buffer. -/
theorem run_rising_priority (m : Nat) :
    ∀ (k : Nat) (s : scheduler_t), ppri_state s k → 1 ≤ k →
      (k + m ≤ 1000 →
        ∃ s2, run_arrivals s (rising_priority_arrivals k m) =
            Except.ok (List.replicate m 0, s2) ∧ ppri_state s2 (k + m)) ∧
      (k ≤ 1000 → 1001 ≤ k + m →
        run_arrivals s (rising_priority_arrivals k m) =
          Except.error Fault.out_of_bounds) := by
  induction m with
  | zero =>
    intro k s h _
    refine ⟨fun _ => ⟨s, rfl, h⟩, fun h1 h2 => ?_⟩
    omega
  | succ m ih =>
    intro k s h hk
    obtain ⟨hstep1, hstep2⟩ := ppri_state_step s k hk h
    constructor
    · intro hle
      obtain ⟨s1, hnj, hs1⟩ := hstep1 (by omega)
      obtain ⟨s2, hrun, hs2⟩ := (ih (k + 1) s1 hs1 (by omega)).1 (by omega)
      refine ⟨s2, ?_, ?_⟩
      · exact run_arrivals_cons_ok s s1 s2
          { job_number := (k : Int), time := (k : Int), running_time := 2000,
            priority := 1000 - (k : Int) }
          (rising_priority_arrivals (k + 1) m) 0 (List.replicate m 0) hnj hrun
      · have : k + (m + 1) = k + 1 + m := by omega
        rw [this]; exact hs2
    · intro hk2 hge
      by_cases hk3 : k = 1000
      · exact run_arrivals_cons_error s
          { job_number := (k : Int), time := (k : Int), running_time := 2000,
            priority := 1000 - (k : Int) }
          (rising_priority_arrivals (k + 1) m) _ (hstep2 hk3)
      · obtain ⟨s1, hnj, hs1⟩ := hstep1 (by omega)
        have hrest := (ih (k + 1) s1 hs1 (by omega)).2 (by omega) (by omega)
        exact run_arrivals_cons_ok_error s s1
          { job_number := (k : Int), time := (k : Int), running_time := 2000,
            priority := 1000 - (k : Int) }
          (rising_priority_arrivals (k + 1) m) 0 _ hnj hrest

theorem ppri_state_after_first : ppri_state (after_first 1 scheme_t.PPRI 0 0 2000 1000) 1 := by
  refine ⟨rfl, rfl, ⟨_, _, rfl, ?_, ?_, ?_⟩, rfl, ?_, Or.inl ⟨?_, rfl⟩⟩
  · decide
  · decide
  · decide
  · show ((malloc_ints MIN_SIZE_ARRS).set 0 (some 0)).length = 1000
    rw [List.length_set, malloc_ints_length]; rfl
  · show (1 : Int) < 1000
    decide

/-- C20 (the code at the failing input): after `scheduler_start_up(1, PPRI)`
the jobs 0, 1, ..., 1000 arrive at times 0, 1, ..., 1000, job `i` with burst
2000 and priority `1000 - i`, so every job starts running on arrival.  The
first 1000 calls return 0 and leave `jobsRun = 1000` with a response buffer of
1000 cells (the `realloc` at `jobsRun == arrSize` asks for the old size); the
call for job 1000 then writes `reponses[1000]`, outside the buffer. -/
theorem scheduler_response_buffer_overflow :
    (∃ s, run_arrivals (scheduler_start_up 1 scheme_t.PPRI)
        (rising_priority_arrivals 0 1000) = Except.ok (List.replicate 1000 0, s) ∧
      s.jobsRun = 1000 ∧ s.reponses.length = 1000 ∧ s.arrSize = 2000) ∧
    run_arrivals (scheduler_start_up 1 scheme_t.PPRI) (rising_priority_arrivals 0 1001) =
      Except.error Fault.out_of_bounds := by
  have h1 := scheduler_new_job_after_start_up scheme_t.PPRI 1 0 0 2000 1000
  rw [if_pos (by decide)] at h1
  obtain ⟨hok, _⟩ := run_rising_priority 999 1 _ ppri_state_after_first (le_refl 1)
  obtain ⟨_, herr⟩ := run_rising_priority 1000 1 _ ppri_state_after_first (le_refl 1)
  constructor
  · obtain ⟨s2, hrun, hs2⟩ := hok (by decide)
    refine ⟨s2, ?_, ?_, hs2.2.2.2.2.1, ?_⟩
    · exact run_arrivals_cons_ok _ _ s2
        { job_number := 0, time := 0, running_time := 2000, priority := 1000 }
        (rising_priority_arrivals 1 999) 0 (List.replicate 999 0) h1 hrun
    · exact hs2.2.2.2.1
    · rcases hs2.2.2.2.2.2 with ⟨a, _⟩ | ⟨_, b⟩
      · have := hs2.2.2.2.1
        rw [this] at a
        exact absurd a (by decide)
      · exact b
  · exact run_arrivals_cons_ok_error _ _
      { job_number := 0, time := 0, running_time := 2000, priority := 1000 }
      (rising_priority_arrivals 1 1000) 0 _ h1 (herr (by decide) (by decide))

end CPUScheduler
